import Mathlib

/-!
Verification development for the rss2hugo migration tool.

The Go sources (`rss2hugo.go` and its richer sibling variant) are shallowly
embedded below: pure helper functions become Lean functions on `String` /
`List Char`; the HTML fragment tree becomes the inductive `Node`; the two
DOM-mutating passes of `rewriteAndDownloadImages` become pure tree
transformations that additionally return the list of scheduled downloads;
the download coordinator and the retrying `downloadFile` loop become
explicit state machines driven by an outcome oracle.

Machine integers do not occur on any modelled path (widths and HTTP status
codes are small naturals), URLs are modelled without percent-encoding
(strings containing `%`, blanks or control characters are outside the
parser's domain, mirroring the subset of `net/url` behaviour the feed data
exercises), and the `alt` text substituted for emoji images is modelled as
a text node.
-/

namespace Rss2Hugo

/-! ## Character list helpers (structural stand-ins for `strings` /
`String` operations, so that everything reduces in the kernel) -/

/-- Split a character list at every occurrence of `ch`
(`strings.Split` on one separator character). -/
def splitChar (ch : Char) : List Char → List (List Char)
  | [] => [[]]
  | c :: rest =>
    match splitChar ch rest with
    | [] => [[c]]
    | h :: t => if c == ch then [] :: h :: t else (c :: h) :: t

/-- Join character lists with the separator `ch`. -/
def joinChar (ch : Char) : List (List Char) → List Char
  | [] => []
  | [p] => p
  | p :: q :: rest => p ++ ch :: joinChar ch (q :: rest)

/-! ## Go string helpers -/

/-- `unicode.IsSpace` (the white space characters recognised by
`strings.TrimSpace`). -/
def goIsSpace (c : Char) : Bool :=
  c == ' ' || c == '\t' || c == '\n' || c == '\x0B' || c == '\x0C' || c == '\r' ||
  c == '\u0085' || c == ' ' || c == ' ' ||
  (' ' ≤ c && c ≤ ' ') || c == ' ' || c == ' ' ||
  c == ' ' || c == ' ' || c == '　'

/-- `strings.TrimSpace`. -/
def goTrimSpace (s : String) : String :=
  String.mk (((s.data.dropWhile goIsSpace).reverse.dropWhile goIsSpace).reverse)

/-- Is `needle` a contiguous sublist of `hay`?  (`strings.Contains` on the
underlying characters.) -/
def listContainsSub (hay needle : List Char) : Bool :=
  match hay with
  | [] => needle.isEmpty
  | _ :: rest => needle.isPrefixOf hay || listContainsSub rest needle

/-- `strings.Contains`. -/
def goContains (hay needle : String) : Bool :=
  listContainsSub hay.data needle.data

/-- `strings.TrimSuffix`. -/
def goTrimSuffixStr (s suf : String) : String :=
  if suf.data.isSuffixOf s.data then String.mk (s.data.take (s.data.length - suf.data.length)) else s

/-! ## The `path` package (`path.Clean`, `Base`, `Dir`, `Ext`, `Join`).
On Linux `filepath.Join` agrees with `path.Join`, so a single embedding
serves both call sites. -/

/-- One step of the `path.Clean` element scan: push a path element onto the
stack of output elements. -/
def cleanPush (rooted : Bool) (st : List (List Char)) (seg : List Char) : List (List Char) :=
  if seg.isEmpty || seg == ['.'] then st
  else if seg == ['.', '.'] then
    match st with
    | [] => if rooted then [] else [['.', '.']]
    | top :: rest => if top == ['.', '.'] then seg :: top :: rest else rest
  else seg :: st

/-- `path.Clean`. -/
def goPathClean (p : String) : String :=
  match p.data with
  | [] => "."
  | c :: rest =>
    let rooted := c == '/'
    let parts := ((splitChar '/' (c :: rest)).foldl (cleanPush rooted) []).reverse
    if rooted then
      match parts with
      | [] => "/"
      | _ => String.mk ('/' :: joinChar '/' parts)
    else
      match parts with
      | [] => "."
      | _ => String.mk (joinChar '/' parts)

/-- `path.Base`. -/
def goPathBase (p : String) : String :=
  match p.data with
  | [] => "."
  | c :: rest =>
    let q := ((c :: rest).reverse.dropWhile (· == '/')).reverse
    let last := (splitChar '/' q).getLastD []
    if last.isEmpty then "/" else String.mk last

/-- `path.Ext`. -/
def goPathExt (p : String) : String :=
  let seg := p.data.reverse.takeWhile (fun c => ¬ c == '/')
  let pre := seg.takeWhile (fun c => ¬ c == '.')
  if pre.length = seg.length then "" else String.mk ('.' :: pre.reverse)

/-- `path.Dir`. -/
def goPathDir (p : String) : String :=
  goPathClean (String.mk ((p.data.reverse.dropWhile (fun c => ¬ c == '/')).reverse))

/-- `path.Join` (and `filepath.Join` on Linux). -/
def goPathJoin (elems : List String) : String :=
  let buf := elems.foldl
    (fun buf e => if ¬ buf.isEmpty || ¬ e.isEmpty then (if ¬ buf.isEmpty then buf ++ "/" else buf) ++ e else buf) ""
  if buf.isEmpty then "" else goPathClean buf

/-! ## `net/url` (the subset the tool exercises)

`GoURL` keeps the components `toOriginalURL` / `filenameFromURL` read and
write.  Percent-encoding is not modelled: strings containing `%`, blanks or
control characters fall outside the parser's domain (it answers `none`, and
the callers then use their parse-failure fallbacks). -/

structure GoURL where
  scheme : String
  host : String
  path : String
  rawQuery : Option String
  fragment : String
deriving Repr, DecidableEq

/-- Split at the first occurrence of `ch`: returns the part before and,
when `ch` occurs, the part after it. -/
def cutAtFirst (cs : List Char) (ch : Char) : List Char × Option (List Char) :=
  match cs.dropWhile (fun c => ¬ c == ch) with
  | [] => (cs.takeWhile (fun c => ¬ c == ch), none)
  | _ :: post => (cs.takeWhile (fun c => ¬ c == ch), some post)

def isSchemeHeadChar (c : Char) : Bool :=
  ('a' ≤ c && c ≤ 'z') || ('A' ≤ c && c ≤ 'Z')

def isSchemeTailChar (c : Char) : Bool :=
  isSchemeHeadChar c || c.isDigit || c == '+' || c == '-' || c == '.'

/-- `getScheme` of `net/url`: `some (scheme, rest)` when a scheme prefix is
present, `some ([], raw)` when there is none, `none` on the
"missing protocol scheme" error. -/
def getScheme (cs : List Char) : Option (List Char × List Char) :=
  match cs with
  | [] => some ([], [])
  | c :: _ =>
    if ¬ isSchemeHeadChar c then
      if c == ':' then none else some ([], cs)
    else
      let pre := cs.takeWhile isSchemeTailChar
      match cs.dropWhile isSchemeTailChar with
      | ':' :: rest => some (pre, rest)
      | _ => some ([], cs)

def isURLModelChar (c : Char) : Bool :=
  ¬ (c == '%' || c == ' ' || c == '\t' || decide (c.toNat < 0x20) || c == '\x7F')

/-- `url.Parse`, restricted to the model's domain: no percent escapes, no
user info, and a URL with a scheme must use the `scheme://host` form. -/
def parseGoURL (raw : String) : Option GoURL :=
  if ¬ raw.data.all isURLModelChar then none else
  let (beforeFrag, frag) := cutAtFirst raw.data '#'
  let (rest0, q) := cutAtFirst beforeFrag '?'
  match getScheme rest0 with
  | none => none
  | some (schemeCs, rest) =>
    let scheme := String.mk (schemeCs.map Char.toLower)
    if ¬ scheme.isEmpty then
      match rest with
      | '/' :: '/' :: auth =>
        let host := auth.takeWhile (fun c => ¬ c == '/')
        let path := auth.dropWhile (fun c => ¬ c == '/')
        if host.any (· == '@') then none
        else some ⟨scheme, String.mk host, String.mk path, (q.map String.mk), ((frag.map String.mk).getD "")⟩
      | _ => none
    else
      let firstSeg := rest.takeWhile (fun c => ¬ c == '/')
      if firstSeg.any (· == ':') then none
      else some ⟨"", "", String.mk rest, (q.map String.mk), ((frag.map String.mk).getD "")⟩

/-- `url.URL.String` for the modelled component set (no user info, no
opaque part, identity escaping). -/
def urlString (u : GoURL) : String :=
  (if ¬ u.scheme.isEmpty then u.scheme ++ ":" else "")
  ++ (if ¬ u.scheme.isEmpty || ¬ u.host.isEmpty then
        (if ¬ u.host.isEmpty || ¬ u.path.isEmpty then "//" else "") ++ u.host
      else "")
  ++ (if ¬ u.path.isEmpty && ¬ (u.path.data.headD ' ' == '/') && ¬ u.host.isEmpty then "/" else "")
  ++ u.path
  ++ (match u.rawQuery with | some q => "?" ++ q | none => "")
  ++ (if ¬ u.fragment.isEmpty then "#" ++ u.fragment else "")

/-! ## WordPress suffix stripping (`wpSizeSuffixRe`, `wpScaledSuffixRe`) -/

/-- Does `cs` match `-(?:\d+)x(?:\d+)(?:-[0-9]+)?` in full (the `$`-anchored
tail of `wpSizeSuffixRe`)? -/
def matchesSizeSuffix (cs : List Char) : Bool :=
  match cs with
  | '-' :: rest =>
    let d1 := rest.takeWhile Char.isDigit
    (if d1.isEmpty then false else
      match rest.dropWhile Char.isDigit with
      | 'x' :: rest2 =>
        let d2 := rest2.takeWhile Char.isDigit
        (if d2.isEmpty then false else
          match rest2.dropWhile Char.isDigit with
          | [] => true
          | '-' :: rest3 => ¬ rest3.isEmpty && rest3.all Char.isDigit
          | _ => false)
      | _ => false)
  | _ => false

/-- Does `cs` match `-scaled(?:-[0-9]+)?` in full (the `$`-anchored tail of
`wpScaledSuffixRe`)? -/
def matchesScaledSuffix (cs : List Char) : Bool :=
  match cs with
  | '-' :: 's' :: 'c' :: 'a' :: 'l' :: 'e' :: 'd' :: rest =>
    match rest with
    | [] => true
    | '-' :: rest2 => ¬ rest2.isEmpty && rest2.all Char.isDigit
    | _ => false
  | _ => false

/-- Kept prefix for `ReplaceAllString(s, "")` with a `$`-anchored pattern:
the match, when one exists, runs from the leftmost start position to the
end of the string, so replacing it keeps the prefix before that start. -/
def findKeptBeforeMatch (m : List Char → Bool) : List Char → Option (List Char)
  | [] => if m [] then some [] else none
  | c :: rest =>
    if m (c :: rest) then some []
    else (findKeptBeforeMatch m rest).map (c :: ·)

/-- `re.ReplaceAllString(s, "")` for a `$`-anchored pattern recognised by
`m`. -/
def goStripAnchored (m : List Char → Bool) (s : String) : String :=
  match findKeptBeforeMatch m s.data with
  | none => s
  | some kept => String.mk kept

/-- `stripWPSuffixes`. -/
def stripWPSuffixes (name : String) : String :=
  goStripAnchored matchesScaledSuffix (goStripAnchored matchesSizeSuffix name)

/-- `toOriginalURL`. -/
def toOriginalURL (raw : String) : String :=
  match parseGoURL raw with
  | none => raw
  | some u =>
    let base := goPathBase u.path
    let dir := goPathDir u.path
    let ext := goPathExt base
    let name := stripWPSuffixes (goTrimSuffixStr base ext)
    urlString { u with path := goPathJoin [dir, name ++ ext] }

/-! ## `srcsetRe` and `pickBestSrc` -/

/-- The RE2 Perl class `\s`. -/
def reIsSpace (c : Char) : Bool :=
  c == ' ' || c == '\t' || c == '\n' || c == '\x0C' || c == '\r'

def isSrcsetURLChar (c : Char) : Bool := ¬ reIsSpace c && ¬ c == ','

/-- Match `,?\s*([^\s,]+)\s+(\d+)w` at the head of `cs`.  The character
classes of adjacent repetitions are disjoint, so the greedy leftmost-first
match is exactly maximal munch. -/
def srcsetMatchAt (cs : List Char) : Option (List Char × List Char × List Char) :=
  let cs1 := match cs with | ',' :: r => r | _ => cs
  let cs2 := cs1.dropWhile reIsSpace
  let url := cs2.takeWhile isSrcsetURLChar
  let r2 := cs2.dropWhile isSrcsetURLChar
  if url.isEmpty then none else
  let ws := r2.takeWhile reIsSpace
  let r3 := r2.dropWhile reIsSpace
  if ws.isEmpty then none else
  let ds := r3.takeWhile Char.isDigit
  let r4 := r3.dropWhile Char.isDigit
  if ds.isEmpty then none else
  match r4 with
  | 'w' :: r5 => some (url, ds, r5)
  | _ => none

/-- `fmt.Sscanf` with `%d` on a non-empty digit string. -/
def natOfDigits (ds : List Char) : Nat :=
  ds.foldl (fun n c => n * 10 + (c.toNat - '0'.toNat)) 0

/-- `srcsetRe.FindAllStringSubmatch`: successive non-overlapping leftmost
matches.  Every match consumes at least one character, so fuel
`cs.length + 1` never runs out. -/
def srcsetFindAll : Nat → List Char → List (String × Nat)
  | 0, _ => []
  | _ + 1, [] => []
  | fuel + 1, c :: rest =>
    match srcsetMatchAt (c :: rest) with
    | some (url, ds, rem) => (String.mk url, natOfDigits ds) :: srcsetFindAll fuel rem
    | none => srcsetFindAll fuel rest

/-- The `(url, width)` entries `srcsetRe` extracts from a `srcset` value. -/
def srcsetEntries (srcset : String) : List (String × Nat) :=
  srcsetFindAll (srcset.data.length + 1) srcset.data

/-- `pickBestSrc`. -/
def pickBestSrc (src srcset : String) : String :=
  let src := goTrimSpace src
  let srcset := goTrimSpace srcset
  ((srcsetEntries srcset).foldl
    (fun (acc : String × Int) m =>
      if (m.2 : Int) > acc.2 then (m.1, (m.2 : Int)) else acc)
    (src, -1)).1

/-- `filenameFromURL`. -/
def filenameFromURL (raw : String) : String :=
  match parseGoURL raw with
  | none => goPathBase raw
  | some u =>
    let name := goPathBase u.path
    if name = "" ∨ name = "/" then "image" else name

/-! ## The HTML fragment tree (`FragmentNode` of the spec)

Attribute operations mirror goquery: `Attr` reads the first binding,
`SetAttr` overwrites the first binding or appends, `RemoveAttr` removes the
first binding.  (The HTML parser never produces duplicate keys.) -/

inductive Node where
  | text (s : String)
  | elem (tag : String) (attrs : List (String × String)) (children : List Node)

abbrev Attrs := List (String × String)

/-- goquery `Attr`: the value, `none` when absent. -/
def findAttr : Attrs → String → Option String
  | [], _ => none
  | (k, v) :: rest, key => if k = key then some v else findAttr rest key

/-- goquery `Attr`'s value component (missing attributes read as `""`). -/
def attrOr (attrs : Attrs) (key : String) : String := (findAttr attrs key).getD ""

/-- goquery `SetAttr`. -/
def setAttr : Attrs → String → String → Attrs
  | [], key, val => [(key, val)]
  | (k, v) :: rest, key, val => if k = key then (k, val) :: rest else (k, v) :: setAttr rest key val

/-- goquery `RemoveAttr`. -/
def removeAttr : Attrs → String → Attrs
  | [], _ => []
  | (k, v) :: rest, key => if k = key then rest else (k, v) :: removeAttr rest key

/-- HTML white space (class attribute tokenisation). -/
def htmlSpace (c : Char) : Bool :=
  c == ' ' || c == '\t' || c == '\n' || c == '\r' || c == '\x0C'

/-- Split on runs of HTML white space (empty pieces dropped later). -/
def splitWS : List Char → List (List Char)
  | [] => [[]]
  | c :: rest =>
    match splitWS rest with
    | [] => [[c]]
    | h :: t => if htmlSpace c then [] :: h :: t else (c :: h) :: t

/-- Does the element's `class` attribute contain `token` (the CSS class
selector `.token` of cascadia)? -/
def hasClassToken (attrs : Attrs) (token : String) : Bool :=
  ((splitWS (attrOr attrs "class").data).filter (fun t => ¬ t.isEmpty)).any (· == token.data)

/-! ## The image pass of `rewriteAndDownloadImages`

`doc.Find("img").Each` visits images in document order over a snapshot, so
the sequential DOM mutation is equivalent to the compositional walk below:
each subtree returns its rewritten nodes, the scheduled `(url, dest)`
pairs, and the local paths of rewritten images not yet captured by an
enclosing `a` element (the nearest `a` ancestor receives the `href`
update, the document-order-last image winning, matching the last
`SetAttr("href", ...)` executed). -/

/-- The emoji-icon test of the image walk. -/
def isEmojiImg (attrs : Attrs) : Bool :=
  goContains (attrOr attrs "class") "wp-smiley" ||
  goContains (attrOr attrs "src") "/s.w.org/images/core/emoji/"

/-- `pickBestSrc` applied to an element's `src`/`srcset` attributes. -/
def bestSrcOf (attrs : Attrs) : String :=
  pickBestSrc (attrOr attrs "src") (attrOr attrs "srcset")

/-- The `-static` flag's default value. -/
def staticDir : String := "static"

/-- The local reference path substituted for an image
(`path.Join(path.Join("/images"│"/galleries", slug), filename)`). -/
def imgRelPath (slug : String) (isGallery : Bool) (origURL : String) : String :=
  goPathJoin [goPathJoin [if isGallery then "/galleries" else "/images", slug],
    filenameFromURL origURL]

/-- The download destination for an image
(`filepath.Join(filepath.Join(staticDir, area, slug), filename)`). -/
def imgDestPath (slug : String) (isGallery : Bool) (origURL : String) : String :=
  goPathJoin [goPathJoin [staticDir, if isGallery then "galleries" else "images", slug],
    filenameFromURL origURL]

/-- The rewritten attribute list of a relocated image: `srcset` and `sizes`
removed, `src` set to the local path. -/
def rewriteImgAttrs (attrs : Attrs) (rel : String) : Attrs :=
  setAttr (removeAttr (removeAttr attrs "srcset") "sizes") "src" rel

mutual

/-- Image pass on one node.  `g` says whether some ancestor matches
`.wp-block-gallery`. -/
def rewriteImgsN (slug : String) (g : Bool) : Node → List Node × List (String × String) × List String
  | .text s => ([.text s], [], [])
  | .elem tag attrs children =>
    let g' := g || hasClassToken attrs "wp-block-gallery"
    if tag = "img" then
      if isEmojiImg attrs then
        if (findAttr attrs "alt").isSome && ¬ (goTrimSpace (attrOr attrs "alt")).isEmpty then
          ([.text (attrOr attrs "alt")], [], [])
        else ([], [], [])
      else
        let best := bestSrcOf attrs
        if best.isEmpty then
          let (ns, sch, pend) := rewriteImgsL slug g' children
          ([.elem tag attrs ns], sch, pend)
        else
          let orig := toOriginalURL best
          let rel := imgRelPath slug g orig
          let (ns, sch, pend) := rewriteImgsL slug g' children
          ([.elem tag (rewriteImgAttrs attrs rel) ns],
            (orig, imgDestPath slug g orig) :: sch, rel :: pend)
    else if tag = "a" then
      let (ns, sch, pend) := rewriteImgsL slug g' children
      match pend with
      | [] => ([.elem tag attrs ns], sch, [])
      | p :: ps => ([.elem tag (setAttr attrs "href" ((p :: ps).getLastD "")) ns], sch, [])
    else
      let (ns, sch, pend) := rewriteImgsL slug g' children
      ([.elem tag attrs ns], sch, pend)

/-- Image pass on a forest, in document order. -/
def rewriteImgsL (slug : String) (g : Bool) : List Node → List Node × List (String × String) × List String
  | [] => ([], [], [])
  | n :: rest =>
    let (ns1, sch1, p1) := rewriteImgsN slug g n
    let (ns2, sch2, p2) := rewriteImgsL slug g rest
    (ns1 ++ ns2, sch1 ++ sch2, p1 ++ p2)

end

/-! ## The video pass of `rewriteAndDownloadImages`

`doc.Find("video").Each` also runs over a document-order snapshot; an
outer video's `SetAttr` on its `source` descendants happens before a
nested video is visited, so a `source` element ends up with the local path
of its nearest rewritten `video` ancestor, and a nested video discovers
the path its outer video just wrote.  The context `ctx` below carries the
local path of the nearest enclosing rewritten video, reproducing exactly
that sequence of mutations in a single top-down walk. -/

mutual

def firstSourceN : Node → Option Attrs
  | .text _ => none
  | .elem tag attrs children =>
    if tag = "source" then some attrs else firstSourceL children

/-- `Find("source").First()` (first `source` descendant in document
order). -/
def firstSourceL : List Node → Option Attrs
  | [] => none
  | n :: rest =>
    match firstSourceN n with
    | some a => some a
    | none => firstSourceL rest

end

/-- The URL a `video` element discovers: its own `src` attribute, or —
when that is blank — the `src` of its first `source` descendant as
currently in the tree (`ctx` when an enclosing video was rewritten). -/
def videoDiscoveredSrc (ctx : Option String) (attrs : Attrs) (children : List Node) : String :=
  let src := attrOr attrs "src"
  if (goTrimSpace src).isEmpty then
    match firstSourceL children with
    | some sa => match ctx with | some r => r | none => attrOr sa "src"
    | none => src
  else src

/-- The local reference path substituted for a video. -/
def videoRelPath (slug : String) (srcURL : String) : String :=
  goPathJoin [goPathJoin ["/videos", slug], filenameFromURL srcURL]

/-- The download destination of a video. -/
def videoDestPath (slug : String) (srcURL : String) : String :=
  goPathJoin [goPathJoin [staticDir, "videos", slug], filenameFromURL srcURL]

mutual

def rewriteVideosN (slug : String) (ctx : Option String) : Node → Node × List (String × String)
  | .text s => (.text s, [])
  | .elem tag attrs children =>
    if tag = "video" then
      let src := videoDiscoveredSrc ctx attrs children
      if (goTrimSpace src).isEmpty then
        let (ns, sch) := rewriteVideosL slug ctx children
        (.elem tag attrs ns, sch)
      else
        let rel := videoRelPath slug src
        let (ns, sch) := rewriteVideosL slug (some rel) children
        (.elem tag (setAttr attrs "src" rel) ns, (src, videoDestPath slug src) :: sch)
    else
      let attrs' := match ctx with
        | some r => if tag = "source" then setAttr attrs "src" r else attrs
        | none => attrs
      let (ns, sch) := rewriteVideosL slug ctx children
      (.elem tag attrs' ns, sch)

def rewriteVideosL (slug : String) (ctx : Option String) : List Node → List Node × List (String × String)
  | [] => ([], [])
  | n :: rest =>
    let (n', sch1) := rewriteVideosN slug ctx n
    let (ns, sch2) := rewriteVideosL slug ctx rest
    (n' :: ns, sch1 ++ sch2)

end

/-- `rewriteAndDownloadImages` on the parsed fragment: both passes, with
the scheduled `(url, dest)` pairs in scheduling order.  (The Go function
serialises the resulting tree back to a string; the claims live at the
tree level.) -/
def rewriteAndDownloadImages (slug : String) (roots : List Node) :
    List Node × List (String × String) :=
  let (ns1, sch1, _) := rewriteImgsL slug false roots
  let (ns2, sch2) := rewriteVideosL slug none ns1
  (ns2, sch1 ++ sch2)

/-! ## `toMarkdownPreserveOrder`

The generic HTML→Markdown engine is abstracted as a function
`conv : Node → Option String` (`none` models a conversion error, which the
Go code answers by skipping the child).  `goConvertString` below
instantiates it with the converter the code configures: the three custom
rules it registers (`p`, `br`, `img`) recursed over the fragment, followed
by the final `strings.TrimSpace` that the library's `Convert` applies to
every `ConvertString` result. -/

mutual

def nodeTextN : Node → String
  | .text s => s
  | .elem _ _ ch => nodeTextL ch

/-- goquery `Text()`: concatenated text descendants. -/
def nodeTextL : List Node → String
  | [] => ""
  | n :: rest => nodeTextN n ++ nodeTextL rest

end

mutual

def imgsInN : Node → List Attrs
  | .text _ => []
  | .elem tag attrs ch => (if tag = "img" then [attrs] else []) ++ imgsInL ch

/-- `Find("img")`: attribute lists of all `img` descendants, document
order. -/
def imgsInL : List Node → List Attrs
  | [] => []
  | n :: rest => imgsInN n ++ imgsInL rest

end

mutual

def firstVideoN : Node → Option (Attrs × List Node)
  | .text _ => none
  | .elem tag attrs ch =>
    if tag = "video" then some (attrs, ch) else firstVideoL ch

/-- `Find("video").First()`. -/
def firstVideoL : List Node → Option (Attrs × List Node)
  | [] => none
  | n :: rest =>
    match firstVideoN n with
    | some v => some v
    | none => firstVideoL rest

end

/-- The per-image emission of the gallery branch (and of the custom `img`
rule): `![alt](src)` with `alt` falling back to `path.Base(src)`, a blank
line after it, images with empty `src` dropped. -/
def imgMarkdown (attrs : Attrs) : String :=
  let src := attrOr attrs "src"
  let alt0 := goTrimSpace (attrOr attrs "alt")
  let alt := if alt0.isEmpty then goPathBase src else alt0
  if src.isEmpty then "" else "![" ++ alt ++ "](" ++ src ++ ")\n\n"

/-- The video block branch: `[Video: name](src)` for the first resolvable
source. -/
def videoChunk (tag : String) (attrs : Attrs) (ch : List Node) : String :=
  let vs : Option (Attrs × List Node) :=
    if tag = "video" then some (attrs, ch) else firstVideoL ch
  match vs with
  | none => ""
  | some (va, vch) =>
    let src0 := attrOr va "src"
    let src :=
      if (goTrimSpace src0).isEmpty then
        match firstSourceL vch with
        | some sa => attrOr sa "src"
        | none => src0
      else src0
    if (goTrimSpace src).isEmpty then ""
    else "[Video: " ++ goPathBase src ++ "](" ++ src ++ ")\n\n"

/-- What the `roots.Each` body appends for one top-level child. -/
def mdChunk (conv : Node → Option String) (n : Node) : String :=
  match n with
  | .text s => if (goTrimSpace s).isEmpty then "" else goTrimSpace s ++ "\n\n"
  | .elem tag attrs ch =>
    if hasClassToken attrs "wp-block-gallery" then
      String.join ((imgsInL ch).map imgMarkdown)
    else if hasClassToken attrs "wp-block-video" || tag == "video" then
      videoChunk tag attrs ch
    else
      match conv (.elem tag attrs ch) with
      | none => ""
      | some frag =>
        if (goTrimSpace frag).isEmpty then
          (let txt := goTrimSpace (nodeTextL ch)
           if txt.isEmpty then "" else txt ++ "\n\n")
        else frag ++ (if frag.data.getLastD ' ' == '\n' then "" else "\n")

/-- `toMarkdownPreserveOrder` (on the parsed fragment's top-level
children). -/
def toMarkdownPreserveOrder (conv : Node → Option String) (roots : List Node) : String :=
  goTrimSpace (String.join (roots.map (mdChunk conv)))

mutual

/-- The rule recursion of the configured converter (the inner `Convert`
walk, before the final trim): the custom rules for `p` (trimmed content,
blank line), `br` (newline) and `img` (image reference), text copied
through, other elements yielding their children's conversion.  The model
covers the registered custom rules and text that the library's escaping
and white-space collapsing leave unchanged (no Markdown metacharacters,
no redundant white space) — the only text the concrete claims feed it. -/
def goConvRules : Node → Option String
  | .text s => some s
  | .elem tag attrs ch =>
    if tag = "p" then
      let content := goTrimSpace (goConvJoin ch)
      some (if content.isEmpty then "" else content ++ "\n\n")
    else if tag = "br" then some "\n"
    else if tag = "img" then some (imgMarkdown attrs)
    else some (goConvJoin ch)

def goConvJoin : List Node → String
  | [] => ""
  | n :: rest => (goConvRules n).getD "" ++ goConvJoin rest

end

/-- `conv.ConvertString` as the Go code observes it: the rule recursion
above, followed by the final `strings.TrimSpace` that the library's
`Convert` applies to every result. -/
def goConvertString (n : Node) : Option String :=
  (goConvRules n).map goTrimSpace

/-! ## The download coordinator (`downloader`, `Schedule`)

`seen` is the key set of the `sync.Map`; `tasks` records in scheduling
order the `(url, dest)` pairs for which a download goroutine was spawned
(`downloadFile` is invoked exactly once per recorded task).  The bounded
worker pool only constrains timing, not which tasks run, so it does not
appear in the state. -/

structure Downloader where
  seen : List String
  tasks : List (String × String)
deriving Repr, DecidableEq

/-- `newDownloader`'s coordinator state. -/
def newDownloaderState : Downloader := ⟨[], []⟩

/-- `(*downloader).Schedule`: `LoadOrStore` on the seen set; only a first
occurrence spawns a task. -/
def schedule (d : Downloader) (url dest : String) : Downloader :=
  if url ∈ d.seen then d
  else ⟨url :: d.seen, d.tasks ++ [(url, dest)]⟩

/-- A whole run's schedule calls, in order, against a fresh coordinator. -/
def runSchedules (calls : List (String × String)) : Downloader :=
  calls.foldl (fun d c => schedule d c.1 c.2) newDownloaderState

/-! ## `downloadFile`

One HTTP attempt is summarised by an oracle outcome: a transport error, or
a response with a status code together with the success of the three
filesystem steps (`MkdirAll`, `Create`, `io.Copy`) that would follow it.
The destination-file state is threaded as a boolean; the deferred cleanup
(`os.Remove` when `lastErr != nil`) makes a created-then-failed attempt
leave the file absent. -/

inductive HTTPOutcome where
  | netErr
  | resp (status : Nat) (mkdirOk createOk copyOk : Bool)

/-- One loop body iteration: (succeeded, terminal client error, dest
exists after the attempt, considering the deferred partial-file removal). -/
def attemptResult (o : HTTPOutcome) (ex : Bool) : Bool × Bool × Bool :=
  match o with
  | .netErr => (false, false, ex)
  | .resp st mk cr cp =>
    if 500 ≤ st then (false, false, ex)
    else if 400 ≤ st then (false, true, ex)
    else if ¬ mk then (false, false, ex)
    else if ¬ cr then (false, false, ex)
    else if ¬ cp then (false, false, false)
    else (true, false, true)

structure DLRun where
  attempts : Nat
  sleeps : List Nat
  ok : Bool
  destAfter : List Bool
  finalDest : Bool
deriving Repr, DecidableEq

/-- The `for attempt := 1; attempt <= 3` loop.  `fuel` is the number of
remaining permitted attempts (`4 - att`); `att < 3` is `fuel ≠ 1`.  A 4xx
response sets `attempt = 3` inside the closure, so the loop exits without
sleeping; a non-terminal failure at `att < 3` sleeps `att*2` seconds and
retries. -/
def downloadFileLoop (oracle : Nat → HTTPOutcome) : Nat → Nat → Bool → DLRun
  | 0, _, ex => ⟨0, [], false, [], ex⟩
  | fuel + 1, att, ex =>
    if (attemptResult (oracle att) ex).1 then
      ⟨1, [], true, [(attemptResult (oracle att) ex).2.2], (attemptResult (oracle att) ex).2.2⟩
    else if (attemptResult (oracle att) ex).2.1 then
      ⟨1, [], false, [(attemptResult (oracle att) ex).2.2], (attemptResult (oracle att) ex).2.2⟩
    else if fuel = 0 then
      ⟨1, [], false, [(attemptResult (oracle att) ex).2.2], (attemptResult (oracle att) ex).2.2⟩
    else
      let r := downloadFileLoop oracle fuel (att + 1) (attemptResult (oracle att) ex).2.2
      ⟨r.attempts + 1, att * 2 :: r.sleeps, r.ok,
        (attemptResult (oracle att) ex).2.2 :: r.destAfter, r.finalDest⟩

/-- `downloadFile`, driven by the oracle, starting from a destination that
does (`ex`) or does not exist. -/
def downloadFile (oracle : Nat → HTTPOutcome) (ex : Bool) : DLRun :=
  downloadFileLoop oracle 3 1 ex

/-- Status code of an outcome, when a response arrived. -/
def HTTPOutcome.statusOf : HTTPOutcome → Option Nat
  | .netErr => none
  | .resp st _ _ _ => some st

/-- Outcomes after which the loop would go on to another attempt. -/
def nonTerminal (o : HTTPOutcome) : Bool :=
  match o with
  | .netErr => true
  | .resp st mk cr cp =>
    if 500 ≤ st then true else if 400 ≤ st then false else ¬ (mk && cr && cp)

/-- A 4xx response. -/
def isClientErr (o : HTTPOutcome) : Bool :=
  match o with
  | .netErr => false
  | .resp st _ _ _ => 400 ≤ st && st < 500

/-- An attempt that runs to a successful copy. -/
def isSuccessOutcome (o : HTTPOutcome) : Bool :=
  match o with
  | .netErr => false
  | .resp st mk cr cp => st < 400 && mk && cr && cp

/-- An attempt that created the destination file and then failed during
the copy. -/
def createdThenFailed (o : HTTPOutcome) : Bool :=
  match o with
  | .netErr => false
  | .resp st mk cr cp => st < 400 && mk && cr && ¬ cp

/-! ## Coordinator lemmas -/

/-- Folding schedule calls over any coordinator state: the tasks carrying
URL `u` are the pre-existing ones plus, when `u` was not yet seen, the
first call for `u`. -/
theorem scheduleAll_filter (u : String) :
    ∀ (calls : List (String × String)) (d : Downloader),
      ((calls.foldl (fun d c => schedule d c.1 c.2) d).tasks.filter (fun t => t.1 = u)) =
        d.tasks.filter (fun t => t.1 = u) ++
          (if u ∈ d.seen then [] else ((calls.filter (fun c => c.1 = u)).take 1))
  | [], d => by simp
  | c :: rest, d => by
    rw [List.foldl_cons]
    by_cases hseen : c.1 ∈ d.seen
    · have hd : schedule d c.1 c.2 = d := by simp [schedule, hseen]
      rw [hd, scheduleAll_filter u rest d]
      by_cases hcu : c.1 = u
      · subst hcu
        simp [hseen, List.filter_cons]
      · simp [List.filter_cons, hcu]
    · have hd : schedule d c.1 c.2 = ⟨c.1 :: d.seen, d.tasks ++ [c]⟩ := by
        simp [schedule, hseen]
      rw [hd, scheduleAll_filter u rest ⟨c.1 :: d.seen, d.tasks ++ [c]⟩]
      by_cases hcu : c.1 = u
      · subst hcu
        simp [hseen, List.filter_cons, List.filter_append]
      · by_cases hu : u ∈ d.seen
        · simp [hu, List.filter_cons, List.filter_append, hcu,
            show (u ∈ c.1 :: d.seen) from List.mem_cons_of_mem _ hu]
        · have hnotu : ¬ u ∈ (c.1 :: d.seen) := by
            simp [List.mem_cons]; exact ⟨fun h => absurd h.symm hcu, hu⟩
          simp [hu, hnotu, List.filter_cons, List.filter_append, hcu]

/-- Every recorded task URL is in the seen set. -/
theorem scheduleAll_sub :
    ∀ (calls : List (String × String)) (d : Downloader),
      (∀ t ∈ d.tasks, t.1 ∈ d.seen) →
      ∀ t ∈ (calls.foldl (fun d c => schedule d c.1 c.2) d).tasks,
        t.1 ∈ (calls.foldl (fun d c => schedule d c.1 c.2) d).seen
  | [], d, h => h
  | c :: rest, d, h => by
    rw [List.foldl_cons]
    by_cases hseen : c.1 ∈ d.seen
    · have hd : schedule d c.1 c.2 = d := by simp [schedule, hseen]
      rw [hd]; exact scheduleAll_sub rest d h
    · have hd : schedule d c.1 c.2 = ⟨c.1 :: d.seen, d.tasks ++ [c]⟩ := by
        simp [schedule, hseen]
      rw [hd]
      refine scheduleAll_sub rest _ ?_
      intro t ht
      rcases List.mem_append.mp ht with h1 | h2
      · exact List.mem_cons_of_mem _ (h t h1)
      · simp at h2; subst h2; exact List.mem_cons_self _ _

/-- No two recorded tasks share a URL. -/
theorem scheduleAll_nodup :
    ∀ (calls : List (String × String)) (d : Downloader),
      (∀ t ∈ d.tasks, t.1 ∈ d.seen) →
      ((d.tasks.map Prod.fst).Nodup) →
      (((calls.foldl (fun d c => schedule d c.1 c.2) d).tasks.map Prod.fst).Nodup)
  | [], _, _, hnd => hnd
  | c :: rest, d, h, hnd => by
    rw [List.foldl_cons]
    by_cases hseen : c.1 ∈ d.seen
    · have hd : schedule d c.1 c.2 = d := by simp [schedule, hseen]
      rw [hd]; exact scheduleAll_nodup rest d h hnd
    · have hd : schedule d c.1 c.2 = ⟨c.1 :: d.seen, d.tasks ++ [c]⟩ := by
        simp [schedule, hseen]
      rw [hd]
      refine scheduleAll_nodup rest _ ?_ ?_
      · intro t ht
        rcases List.mem_append.mp ht with h1 | h2
        · exact List.mem_cons_of_mem _ (h t h1)
        · simp at h2; subst h2; exact List.mem_cons_self _ _
      · have hnotin : c.1 ∉ d.tasks.map Prod.fst := by
          intro hmem
          rcases List.mem_map.mp hmem with ⟨t, ht, hteq⟩
          exact hseen (hteq ▸ h t ht)
        rw [List.map_append]
        refine List.Nodup.append hnd (by simp) ?_
        intro a ha hb
        simp at hb
        subst hb
        exact hnotin ha

/-! ## `downloadFile` loop lemmas -/

theorem attempt_fst (o : HTTPOutcome) (ex : Bool) :
    (attemptResult o ex).1 = isSuccessOutcome o := by
  cases o with
  | netErr => rfl
  | resp st mk cr cp =>
    by_cases h5 : 500 ≤ st <;> by_cases h4 : 400 ≤ st <;>
      cases mk <;> cases cr <;> cases cp <;>
      simp [attemptResult, isSuccessOutcome, h4, h5, decide_eq_true_eq,
        decide_eq_false_iff_not] <;> omega

theorem attempt_term (o : HTTPOutcome) (ex : Bool) :
    (attemptResult o ex).2.1 = isClientErr o := by
  cases o with
  | netErr => rfl
  | resp st mk cr cp =>
    by_cases h5 : 500 ≤ st <;> by_cases h4 : 400 ≤ st <;>
      cases mk <;> cases cr <;> cases cp <;>
      simp [attemptResult, isClientErr, h4, h5, decide_eq_true_eq,
        decide_eq_false_iff_not] <;> omega

theorem attempt_exists (o : HTTPOutcome) (ex : Bool) :
    (attemptResult o ex).2.2 =
      (if createdThenFailed o then false else if isSuccessOutcome o then true else ex) := by
  cases o with
  | netErr =>
    simp [attemptResult, createdThenFailed, isSuccessOutcome]
  | resp st mk cr cp =>
    by_cases h5 : 500 ≤ st <;> by_cases h4 : 400 ≤ st <;>
      cases mk <;> cases cr <;> cases cp <;>
      simp [attemptResult, createdThenFailed, isSuccessOutcome, h4, h5, decide_eq_true_eq,
        decide_eq_false_iff_not] <;> omega

theorem nonTerminal_eq (o : HTTPOutcome) :
    nonTerminal o = (!(isSuccessOutcome o) && !(isClientErr o)) := by
  cases o with
  | netErr => rfl
  | resp st mk cr cp =>
    by_cases h5 : 500 ≤ st <;> by_cases h4 : 400 ≤ st <;>
      cases mk <;> cases cr <;> cases cp <;>
      simp [nonTerminal, isSuccessOutcome, isClientErr, h4, h5, decide_eq_true_eq,
        decide_eq_false_iff_not] <;> omega

theorem ctf_not_success (o : HTTPOutcome) :
    createdThenFailed o = true → isSuccessOutcome o = false := by
  cases o with
  | netErr => simp [createdThenFailed]
  | resp st mk cr cp =>
    cases mk <;> cases cr <;> cases cp <;> simp [createdThenFailed, isSuccessOutcome]

theorem ctf_not_client (o : HTTPOutcome) :
    createdThenFailed o = true → isClientErr o = false := by
  cases o with
  | netErr => simp [createdThenFailed]
  | resp st mk cr cp =>
    cases mk <;> cases cr <;> cases cp <;>
      simp [createdThenFailed, isClientErr, decide_eq_true_eq, decide_eq_false_iff_not] <;> omega

theorem attempt_exists_ctf (o : HTTPOutcome) (ex : Bool) (h : createdThenFailed o = true) :
    (attemptResult o ex).2.2 = false := by
  rw [attempt_exists, h]
  simp

theorem client_not_success (o : HTTPOutcome) :
    isClientErr o = true → isSuccessOutcome o = false := by
  cases o with
  | netErr => simp [isClientErr]
  | resp st mk cr cp =>
    simp only [isClientErr, isSuccessOutcome, Bool.and_eq_true, decide_eq_true_eq]
    intro h
    have hlt : decide (st < 400) = false := by
      simp only [decide_eq_false_iff_not]
      omega
    simp [hlt]

theorem attempt_exists_nosucc (o : HTTPOutcome) (h : isSuccessOutcome o = false) :
    (attemptResult o false).2.2 = false := by
  rw [attempt_exists, h]
  simp

theorem loop_attempts_le (oracle : Nat → HTTPOutcome) :
    ∀ (fuel att : Nat) (ex : Bool), (downloadFileLoop oracle fuel att ex).attempts ≤ fuel
  | 0, _, _ => Nat.le_refl 0
  | fuel + 1, att, ex => by
    simp only [downloadFileLoop]
    split_ifs with h1 h2 h3
    · simp
    · simp
    · simp
    · have := loop_attempts_le oracle fuel (att + 1) ((attemptResult (oracle att) ex).2.2)
      show (downloadFileLoop oracle fuel (att + 1) ((attemptResult (oracle att) ex).2.2)).attempts + 1 ≤ fuel + 1
      omega

theorem loop_attempts_pos (oracle : Nat → HTTPOutcome) :
    ∀ (fuel att : Nat) (ex : Bool), 0 < fuel → 0 < (downloadFileLoop oracle fuel att ex).attempts
  | 0, _, _, h => absurd h (by simp)
  | fuel + 1, att, ex, _ => by
    simp only [downloadFileLoop]
    split_ifs <;> simp

theorem loop_exhaust (oracle : Nat → HTTPOutcome) :
    ∀ (fuel att : Nat) (ex : Bool), 0 < fuel → (∀ i, nonTerminal (oracle i) = true) →
      (downloadFileLoop oracle fuel att ex).attempts = fuel ∧
      (downloadFileLoop oracle fuel att ex).ok = false
  | 0, _, _, h, _ => absurd h (by simp)
  | fuel + 1, att, ex, _, hnt => by
    have hcur := hnt att
    rw [nonTerminal_eq, Bool.and_eq_true, Bool.not_eq_true', Bool.not_eq_true'] at hcur
    simp only [downloadFileLoop, attempt_fst, attempt_term, hcur.1, hcur.2]
    rcases Nat.eq_zero_or_pos fuel with hz | hp
    · subst hz; simp
    · have hne : ¬ fuel = 0 := Nat.pos_iff_ne_zero.mp hp
      simp only [if_neg hne, Bool.false_eq_true, if_false]
      have ih := loop_exhaust oracle fuel (att + 1) ((attemptResult (oracle att) ex).2.2) hp hnt
      constructor
      · show (downloadFileLoop oracle fuel (att + 1) ((attemptResult (oracle att) ex).2.2)).attempts + 1 = fuel + 1
        omega
      · exact ih.2

theorem loop_clientErr (oracle : Nat → HTTPOutcome) :
    ∀ (fuel att : Nat) (ex : Bool) (k : Nat), k < fuel →
      (∀ i, i < k → nonTerminal (oracle (att + i)) = true) →
      isClientErr (oracle (att + k)) = true →
      (downloadFileLoop oracle fuel att ex).attempts = k + 1 ∧
      (downloadFileLoop oracle fuel att ex).ok = false
  | 0, _, _, k, hk, _, _ => absurd hk (by omega)
  | fuel + 1, att, ex, 0, _, _, hterm => by
    rw [Nat.add_zero] at hterm
    have hs : isSuccessOutcome (oracle att) = false := client_not_success _ hterm
    simp only [downloadFileLoop, attempt_fst, attempt_term, hs, hterm]
    simp
  | fuel + 1, att, ex, k + 1, hk, hnt, hterm => by
    have hcur := hnt 0 (by omega)
    rw [Nat.add_zero] at hcur
    rw [nonTerminal_eq, Bool.and_eq_true, Bool.not_eq_true', Bool.not_eq_true'] at hcur
    have hne : ¬ fuel = 0 := by omega
    simp only [downloadFileLoop, attempt_fst, attempt_term, hcur.1, hcur.2,
      Bool.false_eq_true, if_false, if_neg hne]
    have ih := loop_clientErr oracle fuel (att + 1) ((attemptResult (oracle att) ex).2.2) k
      (by omega)
      (fun i hi => by have := hnt (i + 1) (by omega); rwa [show att + (i + 1) = att + 1 + i by omega] at this)
      (by rwa [show att + 1 + k = att + (k + 1) by omega])
    constructor
    · show (downloadFileLoop oracle fuel (att + 1) ((attemptResult (oracle att) ex).2.2)).attempts + 1 = k + 1 + 1
      omega
    · exact ih.2

theorem loop_success (oracle : Nat → HTTPOutcome) :
    ∀ (fuel att : Nat) (ex : Bool) (k : Nat), k < fuel →
      (∀ i, i < k → nonTerminal (oracle (att + i)) = true) →
      isSuccessOutcome (oracle (att + k)) = true →
      (downloadFileLoop oracle fuel att ex).attempts = k + 1 ∧
      (downloadFileLoop oracle fuel att ex).ok = true
  | 0, _, _, k, hk, _, _ => absurd hk (by omega)
  | fuel + 1, att, ex, 0, _, _, hsucc => by
    rw [Nat.add_zero] at hsucc
    simp only [downloadFileLoop, attempt_fst, hsucc]
    simp
  | fuel + 1, att, ex, k + 1, hk, hnt, hsucc => by
    have hcur := hnt 0 (by omega)
    rw [Nat.add_zero] at hcur
    rw [nonTerminal_eq, Bool.and_eq_true, Bool.not_eq_true', Bool.not_eq_true'] at hcur
    have hne : ¬ fuel = 0 := by omega
    simp only [downloadFileLoop, attempt_fst, attempt_term, hcur.1, hcur.2,
      Bool.false_eq_true, if_false, if_neg hne]
    have ih := loop_success oracle fuel (att + 1) ((attemptResult (oracle att) ex).2.2) k
      (by omega)
      (fun i hi => by have := hnt (i + 1) (by omega); rwa [show att + (i + 1) = att + 1 + i by omega] at this)
      (by rwa [show att + 1 + k = att + (k + 1) by omega])
    constructor
    · show (downloadFileLoop oracle fuel (att + 1) ((attemptResult (oracle att) ex).2.2)).attempts + 1 = k + 1 + 1
      omega
    · exact ih.2



/-! Branch-resolved unfoldings of one loop iteration. -/

theorem loop_eq_success (oracle : Nat → HTTPOutcome) (fuel att : Nat) (ex : Bool)
    (h : isSuccessOutcome (oracle att) = true) :
    downloadFileLoop oracle (fuel + 1) att ex =
      ⟨1, [], true, [(attemptResult (oracle att) ex).2.2], (attemptResult (oracle att) ex).2.2⟩ := by
  simp [downloadFileLoop, attempt_fst, h]

theorem loop_eq_client (oracle : Nat → HTTPOutcome) (fuel att : Nat) (ex : Bool)
    (h1 : isSuccessOutcome (oracle att) = false) (h2 : isClientErr (oracle att) = true) :
    downloadFileLoop oracle (fuel + 1) att ex =
      ⟨1, [], false, [(attemptResult (oracle att) ex).2.2], (attemptResult (oracle att) ex).2.2⟩ := by
  simp [downloadFileLoop, attempt_fst, attempt_term, h1, h2]

theorem loop_eq_last (oracle : Nat → HTTPOutcome) (att : Nat) (ex : Bool)
    (h1 : isSuccessOutcome (oracle att) = false) (h2 : isClientErr (oracle att) = false) :
    downloadFileLoop oracle 1 att ex =
      ⟨1, [], false, [(attemptResult (oracle att) ex).2.2], (attemptResult (oracle att) ex).2.2⟩ := by
  simp [downloadFileLoop, attempt_fst, attempt_term, h1, h2]

theorem loop_eq_step (oracle : Nat → HTTPOutcome) (fuel att : Nat) (ex : Bool)
    (h1 : isSuccessOutcome (oracle att) = false) (h2 : isClientErr (oracle att) = false)
    (hf : fuel ≠ 0) :
    downloadFileLoop oracle (fuel + 1) att ex =
      ⟨(downloadFileLoop oracle fuel (att + 1) ((attemptResult (oracle att) ex).2.2)).attempts + 1,
       att * 2 :: (downloadFileLoop oracle fuel (att + 1) ((attemptResult (oracle att) ex).2.2)).sleeps,
       (downloadFileLoop oracle fuel (att + 1) ((attemptResult (oracle att) ex).2.2)).ok,
       (attemptResult (oracle att) ex).2.2 ::
         (downloadFileLoop oracle fuel (att + 1) ((attemptResult (oracle att) ex).2.2)).destAfter,
       (downloadFileLoop oracle fuel (att + 1) ((attemptResult (oracle att) ex).2.2)).finalDest⟩ := by
  simp [downloadFileLoop, attempt_fst, attempt_term, h1, h2, hf]

theorem loop_sleeps (oracle : Nat → HTTPOutcome) :
    ∀ (fuel att : Nat) (ex : Bool),
      (downloadFileLoop oracle fuel att ex).sleeps =
        (List.range ((downloadFileLoop oracle fuel att ex).attempts - 1)).map
          (fun i => (att + i) * 2)
  | 0, _, _ => by simp [downloadFileLoop]
  | fuel + 1, att, ex => by
    cases hS : isSuccessOutcome (oracle att) with
    | true => rw [loop_eq_success oracle fuel att ex hS]; simp
    | false =>
      cases hT : isClientErr (oracle att) with
      | true => rw [loop_eq_client oracle fuel att ex hS hT]; simp
      | false =>
        cases fuel with
        | zero => rw [loop_eq_last oracle att ex hS hT]; simp
        | succ f =>
          rw [loop_eq_step oracle (f + 1) att ex hS hT (by omega)]
          have hpos := loop_attempts_pos oracle (f + 1) (att + 1)
            ((attemptResult (oracle att) ex).2.2) (by omega)
          rw [loop_sleeps oracle (f + 1) (att + 1) ((attemptResult (oracle att) ex).2.2)]
          rcases Nat.exists_eq_add_of_lt hpos with ⟨m, hm⟩
          rw [hm]
          simp only [Nat.zero_add, Nat.add_sub_cancel, List.range_succ_eq_map, List.map_cons,
            Nat.add_zero, List.map_map]
          congr 1
          apply List.map_congr_left
          intro i _
          show (att + 1 + i) * 2 = (att + (i + 1)) * 2
          omega

theorem loop_destAfter (oracle : Nat → HTTPOutcome) :
    ∀ (fuel att : Nat) (ex : Bool) (i : Nat),
      i < (downloadFileLoop oracle fuel att ex).attempts →
      createdThenFailed (oracle (att + i)) = true →
      (downloadFileLoop oracle fuel att ex).destAfter.getD i true = false
  | 0, _, _, i, hi, _ => absurd hi (by simp [downloadFileLoop])
  | fuel + 1, att, ex, i, hi, hctf => by
    cases hS : isSuccessOutcome (oracle att) with
    | true =>
      rw [loop_eq_success oracle fuel att ex hS] at hi ⊢
      have hi0 : i = 0 := by simpa using hi
      subst hi0
      rw [Nat.add_zero] at hctf
      rw [ctf_not_success _ hctf] at hS
      exact absurd hS (by simp)
    | false =>
      cases hT : isClientErr (oracle att) with
      | true =>
        rw [loop_eq_client oracle fuel att ex hS hT] at hi ⊢
        have hi0 : i = 0 := by simpa using hi
        subst hi0
        rw [Nat.add_zero] at hctf
        rw [ctf_not_client _ hctf] at hT
        exact absurd hT (by simp)
      | false =>
        cases fuel with
        | zero =>
          rw [loop_eq_last oracle att ex hS hT] at hi ⊢
          have hi0 : i = 0 := by simpa using hi
          subst hi0
          rw [Nat.add_zero] at hctf
          simpa using attempt_exists_ctf _ ex hctf
        | succ f =>
          rw [loop_eq_step oracle (f + 1) att ex hS hT (by omega)] at hi ⊢
          cases i with
          | zero =>
            rw [Nat.add_zero] at hctf
            simpa using attempt_exists_ctf _ ex hctf
          | succ j =>
            have hj : j < (downloadFileLoop oracle (f + 1) (att + 1)
                ((attemptResult (oracle att) ex).2.2)).attempts := by
              have : j + 1 < (downloadFileLoop oracle (f + 1) (att + 1)
                  ((attemptResult (oracle att) ex).2.2)).attempts + 1 := by simpa using hi
              omega
            have hctf2 : createdThenFailed (oracle (att + 1 + j)) = true := by
              rwa [show att + 1 + j = att + (j + 1) by omega]
            have ih := loop_destAfter oracle (f + 1) (att + 1)
              ((attemptResult (oracle att) ex).2.2) j hj hctf2
            simpa using ih

theorem loop_no_create (oracle : Nat → HTTPOutcome) :
    ∀ (fuel att : Nat),
      (downloadFileLoop oracle fuel att false).ok = false →
      (downloadFileLoop oracle fuel att false).finalDest = false
  | 0, _, _ => rfl
  | fuel + 1, att, hok => by
    cases hS : isSuccessOutcome (oracle att) with
    | true =>
      rw [loop_eq_success oracle fuel att false hS] at hok
      exact absurd hok (by simp)
    | false =>
      cases hT : isClientErr (oracle att) with
      | true =>
        rw [loop_eq_client oracle fuel att false hS hT]
        simpa using attempt_exists_nosucc _ hS
      | false =>
        cases fuel with
        | zero =>
          rw [loop_eq_last oracle att false hS hT]
          simpa using attempt_exists_nosucc _ hS
        | succ f =>
          rw [loop_eq_step oracle (f + 1) att false hS hT (by omega)] at hok ⊢
          have hex : (attemptResult (oracle att) false).2.2 = false :=
            attempt_exists_nosucc _ hS
          rw [hex] at hok ⊢
          simp only at hok ⊢
          exact loop_no_create oracle (f + 1) (att + 1) hok

theorem loop_cleanup (oracle : Nat → HTTPOutcome) :
    ∀ (fuel att : Nat) (ex : Bool),
      (downloadFileLoop oracle fuel att ex).ok = false →
      (∃ i, i < (downloadFileLoop oracle fuel att ex).attempts ∧
        createdThenFailed (oracle (att + i)) = true) →
      (downloadFileLoop oracle fuel att ex).finalDest = false
  | 0, _, _, _, hex => by
    rcases hex with ⟨i, hi, _⟩
    exact absurd hi (by simp [downloadFileLoop])
  | fuel + 1, att, ex, hok, hex => by
    rcases hex with ⟨i, hi, hctf⟩
    cases hS : isSuccessOutcome (oracle att) with
    | true =>
      rw [loop_eq_success oracle fuel att ex hS] at hok
      exact absurd hok (by simp)
    | false =>
      cases hT : isClientErr (oracle att) with
      | true =>
        rw [loop_eq_client oracle fuel att ex hS hT] at hi
        have hi0 : i = 0 := by simpa using hi
        subst hi0
        rw [Nat.add_zero] at hctf
        rw [ctf_not_client _ hctf] at hT
        exact absurd hT (by simp)
      | false =>
        cases fuel with
        | zero =>
          rw [loop_eq_last oracle att ex hS hT]
          cases i with
          | zero =>
            rw [Nat.add_zero] at hctf
            simpa using attempt_exists_ctf _ ex hctf
          | succ j =>
            rw [loop_eq_last oracle att ex hS hT] at hi
            exact absurd hi (by simp)
        | succ f =>
          rw [loop_eq_step oracle (f + 1) att ex hS hT (by omega)] at hok hi ⊢
          simp only at hok hi ⊢
          cases i with
          | zero =>
            rw [Nat.add_zero] at hctf
            have hex0 : (attemptResult (oracle att) ex).2.2 = false :=
              attempt_exists_ctf _ ex hctf
            rw [hex0] at hok ⊢
            exact loop_no_create oracle (f + 1) (att + 1) hok
          | succ j =>
            have hj : j < (downloadFileLoop oracle (f + 1) (att + 1)
                ((attemptResult (oracle att) ex).2.2)).attempts := by omega
            have hctf2 : createdThenFailed (oracle (att + 1 + j)) = true := by
              rwa [show att + 1 + j = att + (j + 1) by omega]
            exact loop_cleanup oracle (f + 1) (att + 1)
              ((attemptResult (oracle att) ex).2.2) hok ⟨j, hj, hctf2⟩

/-- First entry of maximal width (the spec's tie-breaking rule). -/
def firstMaxEntry : List (String × Nat) → Option (String × Nat)
  | [] => none
  | e :: rest =>
    match firstMaxEntry rest with
    | none => some e
    | some b => if b.2 > e.2 then some b else some e

/-- Modelled from the spec's words (§4.1 best-source selection): pick the
entry with the maximum width, the first such entry winning ties; fall back
when there is no parsable entry. -/
def specBestSelect (fallback : String) (entries : List (String × Nat)) : String :=
  match firstMaxEntry entries with
  | none => fallback
  | some b => b.1

theorem pickBest_fold :
    ∀ (entries : List (String × Nat)) (s : String) (w : Int),
      (entries.foldl
        (fun (acc : String × Int) m =>
          if (m.2 : Int) > acc.2 then (m.1, (m.2 : Int)) else acc) (s, w)).1 =
      (match firstMaxEntry entries with
       | none => s
       | some b => if (b.2 : Int) > w then b.1 else s)
  | [], s, w => rfl
  | e :: rest, s, w => by
    rw [List.foldl_cons]
    by_cases he : (e.2 : Int) > w
    · rw [if_pos he, pickBest_fold rest e.1 (e.2 : Int)]
      simp only [firstMaxEntry]
      cases hm : firstMaxEntry rest with
      | none => simp [he]
      | some b =>
        by_cases hbe : b.2 > e.2
        · have hbe' : (b.2 : Int) > (e.2 : Int) := by exact_mod_cast hbe
          have hbw : (b.2 : Int) > w := lt_trans he hbe'
          simp [hbe, hbe', hbw]
        · have hbe' : ¬ (b.2 : Int) > (e.2 : Int) := by exact_mod_cast hbe
          simp [hbe, hbe', he]
    · rw [if_neg he, pickBest_fold rest s w]
      simp only [firstMaxEntry]
      cases hm : firstMaxEntry rest with
      | none => simp [he]
      | some b =>
        by_cases hbe : b.2 > e.2
        · simp [hbe]
        · have hbw : ¬ (b.2 : Int) > w := by
            have hbe' : (b.2 : Int) ≤ (e.2 : Int) := by exact_mod_cast Nat.not_lt.mp hbe
            omega
          simp [hbe, hbw, he]

/-- C6 (amended): `pickBestSrc` parses `srcset` through `srcsetRe` and
returns the URL of the first entry of maximal width; with no parsable
entry it falls back to `src` trimmed of surrounding white space (not to
`src` verbatim); on the spec's example it selects `b.jpg`. -/
theorem pickBestSrc_spec :
    (∀ src srcset, pickBestSrc src srcset =
      specBestSelect (goTrimSpace src) (srcsetEntries (goTrimSpace srcset))) ∧
    (pickBestSrc "a.jpg" "a.jpg 300w, b.jpg 1024w, c.jpg 768w" = "b.jpg") ∧
    (∀ src srcset, srcsetEntries (goTrimSpace srcset) = [] →
      pickBestSrc src srcset = goTrimSpace src) := by
  have key : ∀ src srcset, pickBestSrc src srcset =
      specBestSelect (goTrimSpace src) (srcsetEntries (goTrimSpace srcset)) := by
    intro src srcset
    show ((srcsetEntries (goTrimSpace srcset)).foldl _ (goTrimSpace src, -1)).1 = _
    rw [pickBest_fold]
    cases hm : firstMaxEntry (srcsetEntries (goTrimSpace srcset)) with
    | none => simp [specBestSelect, hm]
    | some b =>
      have : (b.2 : Int) > -1 := by
        have : (0 : Int) ≤ (b.2 : Int) := Int.ofNat_nonneg b.2
        omega
      simp [specBestSelect, hm, this]
  refine ⟨key, by decide, ?_⟩
  intro src srcset h
  rw [key, h]
  rfl

/-- C6 counterexample: with no parsable `srcset` entry the function
returns the trimmed `src`, not `src` itself. -/
theorem pickBestSrc_trim_cex :
    srcsetEntries (goTrimSpace "") = [] ∧ pickBestSrc " a.jpg " "" ≠ " a.jpg " := by decide

/-- C6 witness. -/
theorem pickBestSrc_spec_witness :
    pickBestSrc " a.jpg " "" = goTrimSpace " a.jpg " :=
  pickBestSrc_spec.2.2 " a.jpg " "" (by decide)



/-- C2: `Schedule` is idempotent in the source URL: a call for an
already-seen URL leaves the coordinator unchanged whatever its destination
argument; over any run, the tasks carrying URL `u` are exactly the first
schedule call for `u` (so one download, one destination file, the first
call's destination); no two tasks share a URL. -/
theorem schedule_idempotent_spec :
    (∀ (d : Downloader) (u dest : String), u ∈ d.seen → schedule d u dest = d) ∧
    (∀ (calls : List (String × String)) (u : String),
      ((runSchedules calls).tasks.filter (fun t => t.1 = u)) =
        ((calls.filter (fun c => c.1 = u)).take 1)) ∧
    (∀ calls : List (String × String), ((runSchedules calls).tasks.map Prod.fst).Nodup) := by
  refine ⟨?_, ?_, ?_⟩
  · intro d u dest h
    simp [schedule, h]
  · intro calls u
    have h := scheduleAll_filter u calls newDownloaderState
    simpa [runSchedules, newDownloaderState] using h
  · intro calls
    exact scheduleAll_nodup calls newDownloaderState
      (by intro t ht; simp [newDownloaderState] at ht) (by simp [newDownloaderState])

/-- C2 witness: a second schedule call for the same URL with a different
destination is a no-op. -/
theorem schedule_idempotent_spec_witness :
    schedule ⟨["u"], [("u", "d1")]⟩ "u" "d2" = ⟨["u"], [("u", "d1")]⟩ :=
  schedule_idempotent_spec.1 ⟨["u"], [("u", "d1")]⟩ "u" "d2" (by decide)

/-- C3: at most 3 HTTP attempts; a 4xx response after only non-terminal
attempts ends the task right there, failed, with no retry; permanent 503
(or permanent transport errors) makes exactly 3 attempts, failed, with
sleeps of 2 then 4 seconds in between; a successful attempt after only
non-terminal ones ends the task successfully; the delay after attempt `i`
is always `i*2` seconds. -/
theorem downloadFile_retry_policy :
    (∀ (oracle : Nat → HTTPOutcome) (ex : Bool), (downloadFile oracle ex).attempts ≤ 3) ∧
    (∀ (oracle : Nat → HTTPOutcome) (ex : Bool) (j : Nat), 1 ≤ j → j ≤ 3 →
      (∀ i, 1 ≤ i → i < j → nonTerminal (oracle i) = true) →
      isClientErr (oracle j) = true →
      (downloadFile oracle ex).attempts = j ∧ (downloadFile oracle ex).ok = false) ∧
    (∀ (oracle : Nat → HTTPOutcome) (ex : Bool), (∀ n, (oracle n).statusOf = some 503) →
      (downloadFile oracle ex).attempts = 3 ∧ (downloadFile oracle ex).ok = false ∧
      (downloadFile oracle ex).sleeps = [2, 4]) ∧
    (∀ (oracle : Nat → HTTPOutcome) (ex : Bool), (∀ n, oracle n = .netErr) →
      (downloadFile oracle ex).attempts = 3 ∧ (downloadFile oracle ex).ok = false ∧
      (downloadFile oracle ex).sleeps = [2, 4]) ∧
    (∀ (oracle : Nat → HTTPOutcome) (ex : Bool) (j : Nat), 1 ≤ j → j ≤ 3 →
      (∀ i, 1 ≤ i → i < j → nonTerminal (oracle i) = true) →
      isSuccessOutcome (oracle j) = true →
      (downloadFile oracle ex).ok = true ∧ (downloadFile oracle ex).attempts = j) ∧
    (∀ (oracle : Nat → HTTPOutcome) (ex : Bool),
      (downloadFile oracle ex).sleeps =
        (List.range ((downloadFile oracle ex).attempts - 1)).map (fun i => (i + 1) * 2)) := by
  refine ⟨?_, ?_, ?_, ?_, ?_, ?_⟩
  · intro oracle ex
    exact loop_attempts_le oracle 3 1 ex
  · intro oracle ex j hj1 hj3 hnt hterm
    have h := loop_clientErr oracle 3 1 ex (j - 1) (by omega)
      (fun i hi => by
        have := hnt (i + 1) (by omega) (by omega)
        rwa [show 1 + i = i + 1 by omega])
      (by rwa [show 1 + (j - 1) = j by omega])
    rw [show j - 1 + 1 = j by omega] at h
    exact h
  · intro oracle ex h503
    have hnt : ∀ i, nonTerminal (oracle i) = true := by
      intro i
      rcases ho : oracle i with _ | ⟨st, mk, cr, cp⟩
      · have := h503 i
        rw [ho] at this
        simp [HTTPOutcome.statusOf] at this
      · have := h503 i
        rw [ho] at this
        simp only [HTTPOutcome.statusOf, Option.some.injEq] at this
        subst this
        simp [nonTerminal]
    have h := loop_exhaust oracle 3 1 ex (by omega) hnt
    refine ⟨h.1, h.2, ?_⟩
    have hs := loop_sleeps oracle 3 1 ex
    rw [h.1] at hs
    simpa using hs
  · intro oracle ex hnet
    have hnt : ∀ i, nonTerminal (oracle i) = true := by
      intro i; rw [hnet i]; rfl
    have h := loop_exhaust oracle 3 1 ex (by omega) hnt
    refine ⟨h.1, h.2, ?_⟩
    have hs := loop_sleeps oracle 3 1 ex
    rw [h.1] at hs
    simpa using hs
  · intro oracle ex j hj1 hj3 hnt hsucc
    have h := loop_success oracle 3 1 ex (j - 1) (by omega)
      (fun i hi => by
        have := hnt (i + 1) (by omega) (by omega)
        rwa [show 1 + i = i + 1 by omega])
      (by rwa [show 1 + (j - 1) = j by omega])
    rw [show j - 1 + 1 = j by omega] at h
    exact ⟨h.2, h.1⟩
  · intro oracle ex
    have hs := loop_sleeps oracle 3 1 ex
    unfold downloadFile
    rw [hs]
    apply List.map_congr_left
    intro i _
    show (1 + i) * 2 = (i + 1) * 2
    omega

/-- C3 witness: permanent HTTP 503. -/
theorem downloadFile_retry_policy_witness :
    (downloadFile (fun _ => .resp 503 true true true) false).attempts = 3 ∧
    (downloadFile (fun _ => .resp 503 true true true) false).ok = false ∧
    (downloadFile (fun _ => .resp 503 true true true) false).sleeps = [2, 4] :=
  downloadFile_retry_policy.2.2.1 (fun _ => .resp 503 true true true) false (fun _ => rfl)

/-- C4: an attempt that created the destination file and then failed
leaves the file removed at the end of that attempt (before any retry and
before the function returns), and a run that ends in error after some
attempt created the file leaves the destination path non-existent. -/
theorem downloadFile_partial_cleanup :
    (∀ (oracle : Nat → HTTPOutcome) (ex : Bool) (i : Nat),
      i < (downloadFile oracle ex).attempts → createdThenFailed (oracle (i + 1)) = true →
      (downloadFile oracle ex).destAfter.getD i true = false) ∧
    (∀ (oracle : Nat → HTTPOutcome) (ex : Bool),
      (downloadFile oracle ex).ok = false →
      (∃ i, i < (downloadFile oracle ex).attempts ∧ createdThenFailed (oracle (i + 1)) = true) →
      (downloadFile oracle ex).finalDest = false) := by
  constructor
  · intro oracle ex i hi hctf
    exact loop_destAfter oracle 3 1 ex i hi (by rwa [show 1 + i = i + 1 by omega])
  · rintro oracle ex hok ⟨i, hi, hctf⟩
    exact loop_cleanup oracle 3 1 ex hok ⟨i, hi, by rwa [show 1 + i = i + 1 by omega]⟩

/-- C4 witness: a mid-copy stream failure on attempt 1 followed by a 404:
the partial file is removed and the terminal failure leaves no
destination file. -/
theorem downloadFile_partial_cleanup_witness :
    (downloadFile (fun n => if n = 1 then .resp 200 true true false else .resp 404 true true true)
      false).destAfter.getD 0 true = false ∧
    (downloadFile (fun n => if n = 1 then .resp 200 true true false else .resp 404 true true true)
      false).finalDest = false :=
  ⟨downloadFile_partial_cleanup.1
      (fun n => if n = 1 then .resp 200 true true false else .resp 404 true true true)
      false 0 (by decide) (by decide),
   downloadFile_partial_cleanup.2
      (fun n => if n = 1 then .resp 200 true true false else .resp 404 true true true)
      false (by decide) ⟨0, by decide, by decide⟩⟩



/-- The end-to-end example fragment of §8. -/
def c7Input : List Node :=
  [Node.elem "p" [] [Node.text "Hello"],
   Node.elem "img"
     [("src", "https://x/a-300x200.jpg"),
      ("srcset", "https://x/a-150x100.jpg 150w, https://x/a-300x200.jpg 300w")] [],
   Node.elem "p" [] [Node.text "World"]]

/-- C7: on the §8 fragment with slug `2024-01-test` the pipeline schedules
exactly one download, for `https://x/a.jpg`, and produces the "Hello"
paragraph, the local image reference and the "World" paragraph in that
order (each converted fragment comes back trimmed, so consecutive blocks
are separated by single newlines). -/
theorem pipeline_end_to_end :
    (rewriteAndDownloadImages "2024-01-test" c7Input).2 =
      [("https://x/a.jpg", "static/images/2024-01-test/a.jpg")] ∧
    toMarkdownPreserveOrder goConvertString (rewriteAndDownloadImages "2024-01-test" c7Input).1 =
      "Hello\n![a.jpg](/images/2024-01-test/a.jpg)\nWorld" := by
  constructor
  · decide
  · decide

/-- C10 (amended): for a URL in the parser's domain, `filenameFromURL`
depends only on the path component — the base name, with the placeholder
`image` when that base name degenerates to `""` or `"/"`; two URLs that
differ only in query/fragment get the same filename and the same
destination path, while deduplication still treats them as distinct
tasks. -/
theorem filenameFromURL_spec :
    (∀ (raw : String) (u : GoURL), parseGoURL raw = some u →
      filenameFromURL raw =
        (if goPathBase u.path = "" ∨ goPathBase u.path = "/" then "image"
         else goPathBase u.path)) ∧
    (∀ (r1 r2 : String) (u1 u2 : GoURL), parseGoURL r1 = some u1 → parseGoURL r2 = some u2 →
      u1.path = u2.path → filenameFromURL r1 = filenameFromURL r2) ∧
    (filenameFromURL "https://x/a.jpg" = filenameFromURL "https://x/a.jpg?v=2") ∧
    (imgDestPath "2024-01-test" false "https://x/a.jpg" =
      imgDestPath "2024-01-test" false "https://x/a.jpg?v=2") ∧
    ((runSchedules [("https://x/a.jpg", "d1"), ("https://x/a.jpg?v=2", "d2")]).tasks.length = 2) := by
  have key : ∀ (raw : String) (u : GoURL), parseGoURL raw = some u →
      filenameFromURL raw =
        (if goPathBase u.path = "" ∨ goPathBase u.path = "/" then "image"
         else goPathBase u.path) := by
    intro raw u h
    simp [filenameFromURL, h]
  refine ⟨key, ?_, by decide, by decide, by decide⟩
  intro r1 r2 u1 u2 h1 h2 hpath
  rw [key r1 u1 h1, key r2 u2 h2, hpath]

/-- C10 counterexample: `https://x/` parses, its path's base name is `/`,
yet the function returns the placeholder `image`, not that base name. -/
theorem filenameFromURL_placeholder_cex :
    (parseGoURL "https://x/").map GoURL.path = some "/" ∧
    goPathBase "/" = "/" ∧
    filenameFromURL "https://x/" = "image" ∧
    ("image" : String) ≠ "/" := by decide

/-- C10 witness. -/
theorem filenameFromURL_spec_witness :
    filenameFromURL "https://x/a.jpg?v=2" =
      (if goPathBase "/a.jpg" = "" ∨ goPathBase "/a.jpg" = "/" then "image"
       else goPathBase "/a.jpg") :=
  filenameFromURL_spec.1 "https://x/a.jpg?v=2" ⟨"https", "x", "/a.jpg", some "v=2", ""⟩ (by decide)

/-- C5 counterexample: the filename stem `a-300x200-scaled` carries a
scaled suffix, yet `toOriginalURL` is not idempotent on it — the first
pass only strips `-scaled`, the second also strips `-300x200`. -/
theorem toOriginalURL_idem_cex :
    goStripAnchored matchesScaledSuffix "a-300x200-scaled" ≠ "a-300x200-scaled" ∧
    toOriginalURL "https://x/a-300x200-scaled.jpg" = "https://x/a-300x200.jpg" ∧
    toOriginalURL (toOriginalURL "https://x/a-300x200-scaled.jpg") ≠
      toOriginalURL "https://x/a-300x200-scaled.jpg" := by decide



/-- Does a top-level child match one of the transformer's special-case
signatures (gallery block, video block, bare video element)? -/
def isSpecialBlock (n : Node) : Bool :=
  match n with
  | .text _ => false
  | .elem tag attrs _ =>
    hasClassToken attrs "wp-block-gallery" || hasClassToken attrs "wp-block-video" || tag == "video"

/-- The emission of a non-special top-level child: text as a trimmed
paragraph (pure white space skipped), an element through the generic
converter with the empty-output fallback and newline padding. -/
def genericChunk (conv : Node → Option String) (n : Node) : String :=
  match n with
  | .text s => if (goTrimSpace s).isEmpty then "" else goTrimSpace s ++ "\n\n"
  | .elem tag attrs ch =>
    match conv (.elem tag attrs ch) with
    | none => ""
    | some frag =>
      if (goTrimSpace frag).isEmpty then
        (let txt := goTrimSpace (nodeTextL ch)
         if txt.isEmpty then "" else txt ++ "\n\n")
      else frag ++ (if frag.data.getLastD ' ' == '\n' then "" else "\n")

theorem mdChunk_generic (conv : Node → Option String) (n : Node)
    (h : isSpecialBlock n = false) : mdChunk conv n = genericChunk conv n := by
  cases n with
  | text s => rfl
  | elem tag attrs ch =>
    simp only [isSpecialBlock, Bool.or_eq_false_iff] at h
    simp only [mdChunk, genericChunk, h.1.1, h.1.2, h.2, Bool.false_eq_true, if_false,
      Bool.or_self]

mutual

/-- Any media element (`img` or `video`) anywhere in the subtree? -/
def hasMediaN : Node → Bool
  | .text _ => false
  | .elem tag _ ch => tag == "img" || tag == "video" || hasMediaL ch

def hasMediaL : List Node → Bool
  | [] => false
  | n :: rest => hasMediaN n || hasMediaL rest

end

/-- C8 (amended): for fragments whose top-level children match none of the
special block signatures, the produced Markdown is exactly the trimmed
in-order concatenation of each child's own emission — text children as
trimmed paragraphs with pure-white-space ones skipped, element children
through the generic converter — so output order equals input document
order. -/
theorem toMarkdown_order (conv : Node → Option String) (roots : List Node)
    (h : roots.all (fun n => !(isSpecialBlock n)) = true) :
    toMarkdownPreserveOrder conv roots =
      goTrimSpace (String.join (roots.map (genericChunk conv))) := by
  unfold toMarkdownPreserveOrder
  congr 1
  congr 1
  apply List.map_congr_left
  intro n hn
  apply mdChunk_generic
  have := List.all_eq_true.mp h n hn
  simpa using this

/-- C8 counterexample: a fragment with no media elements whose middle
child carries the gallery class: its text is dropped entirely instead of
being emitted in order. -/
def c8cex : List Node :=
  [Node.elem "p" [] [Node.text "A"],
   Node.elem "div" [("class", "wp-block-gallery")] [Node.text "B"],
   Node.elem "p" [] [Node.text "C"]]

theorem toMarkdown_order_cex :
    hasMediaL c8cex = false ∧
    toMarkdownPreserveOrder goConvertString c8cex = "A\nC" ∧
    goContains (toMarkdownPreserveOrder goConvertString c8cex) "B" = false ∧
    goContains (nodeTextL c8cex) "B" = true := by decide

/-- C8 witness. -/
theorem toMarkdown_order_witness :
    toMarkdownPreserveOrder goConvertString
      [Node.elem "p" [] [Node.text "Hello"], Node.text "  ", Node.text "mid",
       Node.elem "p" [] [Node.text "World"]] =
    goTrimSpace (String.join
      ([Node.elem "p" [] [Node.text "Hello"], Node.text "  ", Node.text "mid",
        Node.elem "p" [] [Node.text "World"]].map (genericChunk goConvertString))) :=
  toMarkdown_order goConvertString
    [Node.elem "p" [] [Node.text "Hello"], Node.text "  ", Node.text "mid",
     Node.elem "p" [] [Node.text "World"]] (by decide)

/-- C9: a top-level element matching the gallery-block signature is
emitted, independently of the generic converter, as the in-document-order
sequence of `![alt](src)` references over all images it contains, each
followed by a blank line (alt falling back to the base name of `src`,
images with empty `src` dropped); and `toMarkdownPreserveOrder` is the
trimmed in-order concatenation of these per-child emissions. -/
theorem gallery_block_spec :
    (∀ (conv : Node → Option String) (tag : String) (attrs : Attrs) (ch : List Node),
      hasClassToken attrs "wp-block-gallery" = true →
      mdChunk conv (.elem tag attrs ch) = String.join ((imgsInL ch).map imgMarkdown)) ∧
    (∀ (conv : Node → Option String) (roots : List Node),
      toMarkdownPreserveOrder conv roots = goTrimSpace (String.join (roots.map (mdChunk conv)))) ∧
    (mdChunk goConvRules (.elem "figure" [("class", "wp-block-gallery")]
        [Node.elem "img" [("src", "/galleries/s/a.jpg")] [],
         Node.elem "div" [] [Node.elem "img" [("src", "/galleries/s/b.jpg"), ("alt", "Bee")] []]]) =
      "![a.jpg](/galleries/s/a.jpg)\n\n![Bee](/galleries/s/b.jpg)\n\n") := by
  refine ⟨?_, fun conv roots => rfl, by decide⟩
  intro conv tag attrs ch h
  simp only [mdChunk, h, if_true]

/-- C9 witness. -/
theorem gallery_block_spec_witness :
    mdChunk goConvRules (.elem "div" [("class", "wp-block-gallery")]
        [Node.elem "img" [("src", "/galleries/s/a.jpg")] []]) =
      String.join ((imgsInL [Node.elem "img" [("src", "/galleries/s/a.jpg")] []]).map imgMarkdown) :=
  gallery_block_spec.1 goConvRules "div" [("class", "wp-block-gallery")]
    [Node.elem "img" [("src", "/galleries/s/a.jpg")] []] (by decide)

/-! ## Extractions and predicates for the media-relocation invariant -/

mutual

/-- The `(ancestor-gallery flag, attributes)` pairs of every `img`
element, document order.  `g` says whether an ancestor matches
`.wp-block-gallery`. -/
def imgsCtxN (g : Bool) : Node → List (Bool × Attrs)
  | .text _ => []
  | .elem tag attrs ch =>
    (if tag = "img" then [(g, attrs)] else []) ++
      imgsCtxL (g || hasClassToken attrs "wp-block-gallery") ch

def imgsCtxL (g : Bool) : List Node → List (Bool × Attrs)
  | [] => []
  | n :: rest => imgsCtxN g n ++ imgsCtxL g rest

end

mutual

/-- The attribute lists of every `a` element, document order. -/
def anchorsCtxN : Node → List Attrs
  | .text _ => []
  | .elem tag attrs ch => (if tag = "a" then [attrs] else []) ++ anchorsCtxL ch

def anchorsCtxL : List Node → List Attrs
  | [] => []
  | n :: rest => anchorsCtxN n ++ anchorsCtxL rest

end

/-- The local path a rewritten image receives. -/
def imgRewrittenRel (slug : String) (g : Bool) (attrs : Attrs) : String :=
  imgRelPath slug g (toOriginalURL (bestSrcOf attrs))

/-- What the image pass does to one image: emoji icons disappear from the
image list, images without a best source stay untouched, all others lose
`srcset`/`sizes` and point `src` at the local path for their area. -/
def imgStep (slug : String) : Bool × Attrs → Option (Bool × Attrs) :=
  fun ga =>
    if isEmojiImg ga.2 then none
    else if (bestSrcOf ga.2).isEmpty then some ga
    else some (ga.1, rewriteImgAttrs ga.2 (imgRewrittenRel slug ga.1 ga.2))

mutual

/-- The local paths of rewritten images in the subtree that are not
captured by an `a` element inside the subtree, document order. -/
def pendOfN (slug : String) (g : Bool) : Node → List String
  | .text _ => []
  | .elem tag attrs ch =>
    if tag = "img" then
      if isEmojiImg attrs then []
      else if (bestSrcOf attrs).isEmpty then
        pendOfL slug (g || hasClassToken attrs "wp-block-gallery") ch
      else
        imgRewrittenRel slug g attrs ::
          pendOfL slug (g || hasClassToken attrs "wp-block-gallery") ch
    else if tag = "a" then []
    else pendOfL slug (g || hasClassToken attrs "wp-block-gallery") ch

def pendOfL (slug : String) (g : Bool) : List Node → List String
  | [] => []
  | n :: rest => pendOfN slug g n ++ pendOfL slug g rest

end

mutual

/-- The attribute lists the `a` elements carry after the image pass: the
nearest enclosing `a` of each rewritten image receives the local path of
the last such image it captures. -/
def anchorsExpectedN (slug : String) (g : Bool) : Node → List Attrs
  | .text _ => []
  | .elem tag attrs ch =>
    let g' := g || hasClassToken attrs "wp-block-gallery"
    if tag = "img" ∧ isEmojiImg attrs then []
    else
      (if tag = "a" then
        [if (pendOfL slug g' ch).isEmpty then attrs
         else setAttr attrs "href" ((pendOfL slug g' ch).getLastD "")]
       else []) ++ anchorsExpectedL slug g' ch

def anchorsExpectedL (slug : String) (g : Bool) : List Node → List Attrs
  | [] => []
  | n :: rest => anchorsExpectedN slug g n ++ anchorsExpectedL slug g rest

end

mutual

/-- Do all `img` elements have empty children (true of every tree the
HTML parser produces — `img` is a void element)? -/
def imgsChildlessN : Node → Bool
  | .text _ => true
  | .elem tag _ ch => (¬ (tag == "img") || ch.isEmpty) && imgsChildlessL ch

def imgsChildlessL : List Node → Bool
  | [] => true
  | n :: rest => imgsChildlessN n && imgsChildlessL rest

end

mutual

def noVideoN : Node → Bool
  | .text _ => true
  | .elem tag _ ch => ¬ (tag == "video") && noVideoL ch

/-- No `video` element in the forest. -/
def noVideoL : List Node → Bool
  | [] => true
  | n :: rest => noVideoN n && noVideoL rest

end

mutual

def noNestedVideoN : Node → Bool
  | .text _ => true
  | .elem tag _ ch => if tag = "video" then noVideoL ch else noNestedVideoL ch

/-- No `video` element strictly inside another `video` element. -/
def noNestedVideoL : List Node → Bool
  | [] => true
  | n :: rest => noNestedVideoN n && noNestedVideoL rest

end

mutual

/-- The `src` attribute values of every `source` element, document
order. -/
def sourceSrcsN : Node → List String
  | .text _ => []
  | .elem tag attrs ch => (if tag = "source" then [attrOr attrs "src"] else []) ++ sourceSrcsL ch

def sourceSrcsL : List Node → List String
  | [] => []
  | n :: rest => sourceSrcsN n ++ sourceSrcsL rest

end

mutual

/-- For every `video` element, its attributes together with the `src`
values of its `source` descendants, document order. -/
def videoProjN : Node → List (Attrs × List String)
  | .text _ => []
  | .elem tag attrs ch =>
    (if tag = "video" then [(attrs, sourceSrcsL ch)] else []) ++ videoProjL ch

def videoProjL : List Node → List (Attrs × List String)
  | [] => []
  | n :: rest => videoProjN n ++ videoProjL rest

end

mutual

/-- Set the `src` of every `source` element in the subtree to `r`. -/
def setSrcOnSourcesN (r : String) : Node → Node
  | .text s => .text s
  | .elem tag attrs ch =>
    .elem tag (if tag = "source" then setAttr attrs "src" r else attrs) (setSrcOnSourcesL r ch)

def setSrcOnSourcesL (r : String) : List Node → List Node
  | [] => []
  | n :: rest => setSrcOnSourcesN r n :: setSrcOnSourcesL r rest

end

/-- What the video pass does to one (unnested) video, in terms of the
projection: discover the source URL (own `src`, else the first `source`
descendant's), and when it is non-blank point the video and all its
`source` descendants at the local path. -/
def videoProjStep (slug : String) : Attrs × List String → Attrs × List String :=
  fun p =>
    let s0 := attrOr p.1 "src"
    let src := if (goTrimSpace s0).isEmpty then p.2.headD s0 else s0
    if (goTrimSpace src).isEmpty then p
    else (setAttr p.1 "src" (videoRelPath slug src),
          p.2.map (fun _ => videoRelPath slug src))



/-! ## Attribute and append lemmas -/

theorem findAttr_setAttr : ∀ (a : Attrs) (k v k' : String),
    findAttr (setAttr a k v) k' = if k = k' then some v else findAttr a k'
  | [], k, v, k' => by simp [setAttr, findAttr]
  | (k0, v0) :: rest, k, v, k' => by
    by_cases h0 : k0 = k
    · subst h0
      by_cases h1 : k0 = k' <;> simp [setAttr, findAttr, h1]
    · by_cases h1 : k0 = k'
      · subst h1
        have : ¬ k = k0 := fun h => h0 h.symm
        simp [setAttr, h0, findAttr, this]
      · simp [setAttr, h0, findAttr, h1, findAttr_setAttr rest k v k']

theorem findAttr_removeAttr : ∀ (a : Attrs) (k k' : String), ¬ k = k' →
    findAttr (removeAttr a k) k' = findAttr a k'
  | [], _, _, _ => by simp [removeAttr]
  | (k0, v0) :: rest, k, k', h => by
    by_cases h0 : k0 = k
    · subst h0
      have : ¬ k0 = k' := h
      simp [removeAttr, findAttr, this]
    · by_cases h1 : k0 = k'
      · subst h1
        simp [removeAttr, h0, findAttr]
      · simp [removeAttr, h0, findAttr, h1, findAttr_removeAttr rest k k' h]

theorem attrOr_setAttr_ne (a : Attrs) (k v k' : String) (h : ¬ k = k') :
    attrOr (setAttr a k v) k' = attrOr a k' := by
  simp [attrOr, findAttr_setAttr, h]

theorem hasClassToken_setAttr (a : Attrs) (k v tok : String) (h : ¬ k = "class") :
    hasClassToken (setAttr a k v) tok = hasClassToken a tok := by
  simp [hasClassToken, attrOr_setAttr_ne a k v "class" h]

theorem attrOr_rewriteImgAttrs_class (a : Attrs) (rel : String) :
    hasClassToken (rewriteImgAttrs a rel) tok = hasClassToken a tok := by
  simp only [rewriteImgAttrs]
  rw [hasClassToken_setAttr _ _ _ _ (by decide)]
  simp only [hasClassToken, attrOr]
  rw [findAttr_removeAttr _ _ _ (by decide), findAttr_removeAttr _ _ _ (by decide)]

theorem imgsCtxL_append (g : Bool) : ∀ xs ys : List Node,
    imgsCtxL g (xs ++ ys) = imgsCtxL g xs ++ imgsCtxL g ys
  | [], ys => by simp [imgsCtxL]
  | x :: xs, ys => by
    simp only [List.cons_append, List.append_eq, List.append_eq, List.append_eq, List.append_eq, List.append_eq, List.append_eq, imgsCtxL, imgsCtxL_append g xs ys, List.append_assoc]

theorem anchorsCtxL_append : ∀ xs ys : List Node,
    anchorsCtxL (xs ++ ys) = anchorsCtxL xs ++ anchorsCtxL ys
  | [], ys => by simp [anchorsCtxL]
  | x :: xs, ys => by
    simp only [List.cons_append, List.append_eq, anchorsCtxL, anchorsCtxL_append xs ys, List.append_assoc]

theorem videoProjL_append : ∀ xs ys : List Node,
    videoProjL (xs ++ ys) = videoProjL xs ++ videoProjL ys
  | [], ys => by simp [videoProjL]
  | x :: xs, ys => by
    simp only [List.cons_append, List.append_eq, videoProjL, videoProjL_append xs ys, List.append_assoc]

theorem sourceSrcsL_append : ∀ xs ys : List Node,
    sourceSrcsL (xs ++ ys) = sourceSrcsL xs ++ sourceSrcsL ys
  | [], ys => by simp [sourceSrcsL]
  | x :: xs, ys => by
    simp only [List.cons_append, List.append_eq, sourceSrcsL, sourceSrcsL_append xs ys, List.append_assoc]

theorem noVideoL_append : ∀ xs ys : List Node,
    noVideoL (xs ++ ys) = (noVideoL xs && noVideoL ys)
  | [], ys => by simp [noVideoL]
  | x :: xs, ys => by
    simp only [List.cons_append, List.append_eq, noVideoL, noVideoL_append xs ys, Bool.and_assoc]

theorem noNestedVideoL_append : ∀ xs ys : List Node,
    noNestedVideoL (xs ++ ys) = (noNestedVideoL xs && noNestedVideoL ys)
  | [], ys => by simp [noNestedVideoL]
  | x :: xs, ys => by
    simp only [List.cons_append, List.append_eq, noNestedVideoL, noNestedVideoL_append xs ys, Bool.and_assoc]



/-! ## Branch equations for the image pass -/

theorem rwImgL_nil (slug : String) (g : Bool) : rewriteImgsL slug g [] = ([], [], []) := rfl

theorem rwImgL_cons (slug : String) (g : Bool) (n : Node) (rest : List Node) :
    rewriteImgsL slug g (n :: rest) =
      ((rewriteImgsN slug g n).1 ++ (rewriteImgsL slug g rest).1,
       (rewriteImgsN slug g n).2.1 ++ (rewriteImgsL slug g rest).2.1,
       (rewriteImgsN slug g n).2.2 ++ (rewriteImgsL slug g rest).2.2) := by
  simp only [rewriteImgsL]

theorem rwImg_text (slug : String) (g : Bool) (s : String) :
    rewriteImgsN slug g (.text s) = ([.text s], [], []) := rfl

theorem rwImg_emoji (slug : String) (g : Bool) (attrs : Attrs) (ch : List Node)
    (he : isEmojiImg attrs = true) :
    rewriteImgsN slug g (.elem "img" attrs ch) =
      (if (findAttr attrs "alt").isSome && ¬ (goTrimSpace (attrOr attrs "alt")).isEmpty then
        ([.text (attrOr attrs "alt")], [], [])
       else ([], [], [])) := by
  simp only [rewriteImgsN, he, if_true, if_pos rfl]

theorem rwImg_noBest (slug : String) (g : Bool) (attrs : Attrs) (ch : List Node)
    (he : isEmojiImg attrs = false) (hb : (bestSrcOf attrs).isEmpty = true) :
    rewriteImgsN slug g (.elem "img" attrs ch) =
      ([.elem "img" attrs (rewriteImgsL slug (g || hasClassToken attrs "wp-block-gallery") ch).1],
       (rewriteImgsL slug (g || hasClassToken attrs "wp-block-gallery") ch).2.1,
       (rewriteImgsL slug (g || hasClassToken attrs "wp-block-gallery") ch).2.2) := by
  simp only [rewriteImgsN, he, hb, if_pos rfl, Bool.false_eq_true, if_false, if_true]

theorem rwImg_best (slug : String) (g : Bool) (attrs : Attrs) (ch : List Node)
    (he : isEmojiImg attrs = false) (hb : (bestSrcOf attrs).isEmpty = false) :
    rewriteImgsN slug g (.elem "img" attrs ch) =
      ([.elem "img" (rewriteImgAttrs attrs (imgRewrittenRel slug g attrs))
          (rewriteImgsL slug (g || hasClassToken attrs "wp-block-gallery") ch).1],
       (toOriginalURL (bestSrcOf attrs),
          imgDestPath slug g (toOriginalURL (bestSrcOf attrs))) ::
         (rewriteImgsL slug (g || hasClassToken attrs "wp-block-gallery") ch).2.1,
       imgRewrittenRel slug g attrs ::
         (rewriteImgsL slug (g || hasClassToken attrs "wp-block-gallery") ch).2.2) := by
  simp only [rewriteImgsN, he, hb, if_pos rfl, Bool.false_eq_true, if_false]
  rcases h : rewriteImgsL slug (g || hasClassToken attrs "wp-block-gallery") ch with ⟨ns, sch, p⟩
  rfl

theorem rwImg_anchor (slug : String) (g : Bool) (attrs : Attrs) (ch : List Node) :
    rewriteImgsN slug g (.elem "a" attrs ch) =
      (match (rewriteImgsL slug (g || hasClassToken attrs "wp-block-gallery") ch).2.2 with
       | [] =>
         ([.elem "a" attrs (rewriteImgsL slug (g || hasClassToken attrs "wp-block-gallery") ch).1],
          (rewriteImgsL slug (g || hasClassToken attrs "wp-block-gallery") ch).2.1, [])
       | p :: ps =>
         ([.elem "a" (setAttr attrs "href" ((p :: ps).getLastD ""))
            (rewriteImgsL slug (g || hasClassToken attrs "wp-block-gallery") ch).1],
          (rewriteImgsL slug (g || hasClassToken attrs "wp-block-gallery") ch).2.1, [])) := by
  simp only [rewriteImgsN, if_pos rfl, reduceCtorEq, if_false, if_neg (by decide : ¬ ("a" = "img"))]
  rcases h : rewriteImgsL slug (g || hasClassToken attrs "wp-block-gallery") ch with ⟨ns, sch, p⟩
  cases p <;> rfl

theorem rwImg_other (slug : String) (g : Bool) (tag : String) (attrs : Attrs) (ch : List Node)
    (h1 : ¬ tag = "img") (h2 : ¬ tag = "a") :
    rewriteImgsN slug g (.elem tag attrs ch) =
      ([.elem tag attrs (rewriteImgsL slug (g || hasClassToken attrs "wp-block-gallery") ch).1],
       (rewriteImgsL slug (g || hasClassToken attrs "wp-block-gallery") ch).2.1,
       (rewriteImgsL slug (g || hasClassToken attrs "wp-block-gallery") ch).2.2) := by
  simp only [rewriteImgsN, if_neg h1, if_neg h2]



mutual

/-- Image pass, node level: the images of the output are the stepped
images of the input, the `a` elements carry the expected `href`s, and the
pending capture list is as specified. -/
theorem imgPassN_spec (slug : String) :
    ∀ (g : Bool) (n : Node), imgsChildlessN n = true →
      imgsCtxL g (rewriteImgsN slug g n).1 = (imgsCtxN g n).filterMap (imgStep slug) ∧
      anchorsCtxL (rewriteImgsN slug g n).1 = anchorsExpectedN slug g n ∧
      (rewriteImgsN slug g n).2.2 = pendOfN slug g n
  | g, .text s, _ => by
    refine ⟨?_, ?_, ?_⟩ <;>
      simp [rwImg_text, imgsCtxL, imgsCtxN, anchorsCtxL, anchorsCtxN, anchorsExpectedN, pendOfN]
  | g, .elem tag attrs ch, h => by
    have hpair := h
    simp only [imgsChildlessN, Bool.and_eq_true] at hpair
    have hch : imgsChildlessL ch = true := hpair.2
    by_cases ht : tag = "img"
    · subst ht
      have hempty : ch = [] := by
        have := hpair.1
        simpa using this
      subst hempty
      by_cases he : isEmojiImg attrs = true
      · rw [rwImg_emoji slug g attrs [] he]
        split_ifs with halt <;>
          refine ⟨?_, ?_, ?_⟩ <;>
            simp [imgsCtxL, imgsCtxN, anchorsCtxL, anchorsCtxN, anchorsExpectedN, pendOfN,
              imgStep, he]
      · have he' : isEmojiImg attrs = false := by simpa using he
        by_cases hb : (bestSrcOf attrs).isEmpty = true
        · rw [rwImg_noBest slug g attrs [] he' hb]
          refine ⟨?_, ?_, ?_⟩ <;>
            simp [rwImgL_nil, imgsCtxL, imgsCtxN, anchorsCtxL, anchorsCtxN, anchorsExpectedN,
              anchorsExpectedL, pendOfN, pendOfL, imgStep, he', hb]
        · have hb' : (bestSrcOf attrs).isEmpty = false := by simpa using hb
          rw [rwImg_best slug g attrs [] he' hb']
          refine ⟨?_, ?_, ?_⟩ <;>
            simp [rwImgL_nil, imgsCtxL, imgsCtxN, anchorsCtxL, anchorsCtxN, anchorsExpectedN,
              anchorsExpectedL, pendOfN, pendOfL, imgStep, he', hb']
    · by_cases ha : tag = "a"
      · subst ha
        rw [rwImg_anchor slug g attrs ch]
        have ih := imgPassL_spec slug (g || hasClassToken attrs "wp-block-gallery") ch hch
        rcases hp : (rewriteImgsL slug (g || hasClassToken attrs "wp-block-gallery") ch).2.2
          with _ | ⟨p, ps⟩
        · refine ⟨?_, ?_, ?_⟩
          · simp only [imgsCtxL, imgsCtxN, List.append_nil, if_neg (by decide : ¬ ("a" = "img")),
              List.nil_append, ih.1]
          · have hpend : pendOfL slug (g || hasClassToken attrs "wp-block-gallery") ch = [] := by
              rw [← ih.2.2, hp]
            simp only [anchorsCtxL, anchorsCtxN, List.append_nil, if_pos rfl,
              anchorsExpectedN, ih.2.1, hpend, List.isEmpty_nil, if_true, if_neg
                (by simp : ¬ ("a" = "img" ∧ isEmojiImg attrs = true))]
          · simp [pendOfN]
        · refine ⟨?_, ?_, ?_⟩
          · simp only [imgsCtxL, imgsCtxN, List.append_nil, if_neg (by decide : ¬ ("a" = "img")),
              List.nil_append,
              hasClassToken_setAttr attrs "href" ((p :: ps).getLastD "") _ (by decide), ih.1]
          · have hpend : pendOfL slug (g || hasClassToken attrs "wp-block-gallery") ch = p :: ps := by
              rw [← ih.2.2, hp]
            simp only [anchorsCtxL, anchorsCtxN, List.append_nil, if_pos rfl,
              anchorsExpectedN, ih.2.1, hpend, if_neg
                (by simp : ¬ ("a" = "img" ∧ isEmojiImg attrs = true))]
            simp
          · simp [pendOfN]
      · rw [rwImg_other slug g tag attrs ch ht ha]
        have ih := imgPassL_spec slug (g || hasClassToken attrs "wp-block-gallery") ch hch
        refine ⟨?_, ?_, ?_⟩
        · simp only [imgsCtxL, imgsCtxN, List.append_nil, if_neg ht, List.nil_append, ih.1]
        · simp only [anchorsCtxL, anchorsCtxN, List.append_nil, if_neg ha,
            anchorsExpectedN, ih.2.1, if_neg (by simp [ht] : ¬ (tag = "img" ∧ isEmojiImg attrs = true)),
            List.nil_append]
        · simp only [pendOfN, if_neg ht, if_neg ha, ih.2.2]

/-- Image pass, forest level. -/
theorem imgPassL_spec (slug : String) :
    ∀ (g : Bool) (ns : List Node), imgsChildlessL ns = true →
      imgsCtxL g (rewriteImgsL slug g ns).1 = (imgsCtxL g ns).filterMap (imgStep slug) ∧
      anchorsCtxL (rewriteImgsL slug g ns).1 = anchorsExpectedL slug g ns ∧
      (rewriteImgsL slug g ns).2.2 = pendOfL slug g ns
  | g, [], _ => by
    refine ⟨rfl, rfl, rfl⟩
  | g, n :: rest, h => by
    have hpair := h
    simp only [imgsChildlessL, Bool.and_eq_true] at hpair
    have ihn := imgPassN_spec slug g n hpair.1
    have ihr := imgPassL_spec slug g rest hpair.2
    rw [rwImgL_cons]
    refine ⟨?_, ?_, ?_⟩
    · rw [imgsCtxL_append, ihn.1, ihr.1]
      show _ = (imgsCtxN g n ++ imgsCtxL g rest).filterMap (imgStep slug)
      rw [List.filterMap_append]
    · rw [anchorsCtxL_append, ihn.2.1, ihr.2.1]
      rfl
    · rw [ihn.2.2, ihr.2.2]
      rfl

end



mutual

/-- The image pass leaves the video projection, the `source` `src` values
and the video-nesting structure unchanged. -/
theorem imgPassVideoN_spec (slug : String) :
    ∀ (g : Bool) (n : Node), imgsChildlessN n = true →
      videoProjL (rewriteImgsN slug g n).1 = videoProjN n ∧
      sourceSrcsL (rewriteImgsN slug g n).1 = sourceSrcsN n ∧
      noVideoL (rewriteImgsN slug g n).1 = noVideoN n ∧
      noNestedVideoL (rewriteImgsN slug g n).1 = noNestedVideoN n
  | g, .text s, _ => by
    refine ⟨rfl, rfl, ?_, ?_⟩ <;>
      simp [rwImg_text, noVideoL, noVideoN, noNestedVideoL, noNestedVideoN]
  | g, .elem tag attrs ch, h => by
    have hpair := h
    simp only [imgsChildlessN, Bool.and_eq_true] at hpair
    have hch : imgsChildlessL ch = true := hpair.2
    by_cases ht : tag = "img"
    · subst ht
      have hempty : ch = [] := by
        have := hpair.1
        simpa using this
      subst hempty
      by_cases he : isEmojiImg attrs = true
      · rw [rwImg_emoji slug g attrs [] he]
        split_ifs with halt <;>
          refine ⟨rfl, rfl, ?_, ?_⟩ <;>
            simp [videoProjL, videoProjN, sourceSrcsL, sourceSrcsN, noVideoL, noVideoN,
              noNestedVideoL, noNestedVideoN]
      · have he' : isEmojiImg attrs = false := by simpa using he
        by_cases hb : (bestSrcOf attrs).isEmpty = true
        · rw [rwImg_noBest slug g attrs [] he' hb]
          refine ⟨?_, ?_, ?_, ?_⟩ <;>
            simp [rwImgL_nil, videoProjL, videoProjN, sourceSrcsL, sourceSrcsN, noVideoL,
              noVideoN, noNestedVideoL, noNestedVideoN]
        · have hb' : (bestSrcOf attrs).isEmpty = false := by simpa using hb
          rw [rwImg_best slug g attrs [] he' hb']
          refine ⟨?_, ?_, ?_, ?_⟩ <;>
            simp [rwImgL_nil, videoProjL, videoProjN, sourceSrcsL, sourceSrcsN, noVideoL,
              noVideoN, noNestedVideoL, noNestedVideoN]
    · by_cases ha : tag = "a"
      · subst ha
        rw [rwImg_anchor slug g attrs ch]
        have ih := imgPassVideoL_spec slug (g || hasClassToken attrs "wp-block-gallery") ch hch
        rcases hp : (rewriteImgsL slug (g || hasClassToken attrs "wp-block-gallery") ch).2.2
          with _ | ⟨p, ps⟩ <;>
          refine ⟨?_, ?_, ?_, ?_⟩ <;>
            simp [videoProjL, videoProjN, sourceSrcsL, sourceSrcsN, noVideoL, noVideoN,
              noNestedVideoL, noNestedVideoN, ih.1, ih.2.1, ih.2.2.1, ih.2.2.2]
      · rw [rwImg_other slug g tag attrs ch ht ha]
        have ih := imgPassVideoL_spec slug (g || hasClassToken attrs "wp-block-gallery") ch hch
        refine ⟨?_, ?_, ?_, ?_⟩ <;>
          simp [videoProjL, videoProjN, sourceSrcsL, sourceSrcsN, noVideoL, noVideoN,
            noNestedVideoL, noNestedVideoN, ih.1, ih.2.1, ih.2.2.1, ih.2.2.2]

theorem imgPassVideoL_spec (slug : String) :
    ∀ (g : Bool) (ns : List Node), imgsChildlessL ns = true →
      videoProjL (rewriteImgsL slug g ns).1 = videoProjL ns ∧
      sourceSrcsL (rewriteImgsL slug g ns).1 = sourceSrcsL ns ∧
      noVideoL (rewriteImgsL slug g ns).1 = noVideoL ns ∧
      noNestedVideoL (rewriteImgsL slug g ns).1 = noNestedVideoL ns
  | g, [], _ => ⟨rfl, rfl, rfl, rfl⟩
  | g, n :: rest, h => by
    have hpair := h
    simp only [imgsChildlessL, Bool.and_eq_true] at hpair
    have ihn := imgPassVideoN_spec slug g n hpair.1
    have ihr := imgPassVideoL_spec slug g rest hpair.2
    rw [rwImgL_cons]
    refine ⟨?_, ?_, ?_, ?_⟩
    · rw [videoProjL_append, ihn.1, ihr.1]; rfl
    · rw [sourceSrcsL_append, ihn.2.1, ihr.2.1]; rfl
    · rw [noVideoL_append, ihn.2.2.1, ihr.2.2.1]; rfl
    · rw [noNestedVideoL_append, ihn.2.2.2, ihr.2.2.2]; rfl

end



/-! ## Path-algebra lemmas for canonical rooted paths -/

/-- A path segment that `path.Clean` passes through unchanged. -/
def normalSeg (cs : List Char) : Bool :=
  ¬ cs.isEmpty && cs.all (fun c => ¬ c == '/') && ¬ cs == ['.'] && ¬ cs == ['.', '.']

/-- The canonical rooted path with the given segments. -/
def mkRooted (parts : List (List Char)) : String :=
  match parts with
  | [] => "/"
  | _ => String.mk ('/' :: joinChar '/' parts)

theorem takeWhile_append_all {p : Char → Bool} :
    ∀ (xs ys : List Char), xs.all p = true → (xs ++ ys).takeWhile p = xs ++ ys.takeWhile p
  | [], ys, _ => rfl
  | x :: xs, ys, h => by
    have hpair := h
    simp only [List.all_cons, Bool.and_eq_true] at hpair
    simp [List.takeWhile_cons, hpair.1, takeWhile_append_all xs ys hpair.2]

theorem dropWhile_append_all {p : Char → Bool} :
    ∀ (xs ys : List Char), xs.all p = true → (xs ++ ys).dropWhile p = ys.dropWhile p
  | [], ys, _ => rfl
  | x :: xs, ys, h => by
    have hpair := h
    simp only [List.all_cons, Bool.and_eq_true] at hpair
    simp [List.dropWhile_cons, hpair.1, dropWhile_append_all xs ys hpair.2]

theorem takeWhile_all {p : Char → Bool} :
    ∀ (xs : List Char), xs.all p = true → xs.takeWhile p = xs
  | [], _ => rfl
  | x :: xs, h => by
    have hpair := h
    simp only [List.all_cons, Bool.and_eq_true] at hpair
    simp [List.takeWhile_cons, hpair.1, takeWhile_all xs hpair.2]

theorem dropWhile_all {p : Char → Bool} :
    ∀ (xs : List Char), xs.all p = true → xs.dropWhile p = []
  | [], _ => rfl
  | x :: xs, h => by
    have hpair := h
    simp only [List.all_cons, Bool.and_eq_true] at hpair
    simp [List.dropWhile_cons, hpair.1, dropWhile_all xs hpair.2]

/-- `splitChar` never returns the empty list. -/
theorem splitChar_ne_nil (ch : Char) : ∀ (xs : List Char), splitChar ch xs ≠ []
  | [] => by simp [splitChar]
  | x :: xs => by
    simp only [splitChar]
    cases h : splitChar ch xs with
    | nil => simp
    | cons a t => by_cases hx : (x == ch) = true <;> simp [hx]

/-- Splitting at a separator that sits between two pieces. -/
theorem splitChar_append (ch : Char) :
    ∀ (xs ys : List Char), splitChar ch (xs ++ ch :: ys) = splitChar ch xs ++ splitChar ch ys
  | [], ys => by
    cases h : splitChar ch ys with
    | nil => exact absurd h (splitChar_ne_nil ch ys)
    | cons a t => simp [splitChar, h]
  | x :: xs, ys => by
    have ih := splitChar_append ch xs ys
    cases h : splitChar ch xs with
    | nil => exact absurd h (splitChar_ne_nil ch xs)
    | cons a t =>
      simp only [List.cons_append, splitChar, List.append_eq]
      rw [ih, h]
      by_cases hx : (x == ch) = true <;> simp [hx]

/-- A separator-free piece splits to itself. -/
theorem splitChar_free (ch : Char) :
    ∀ (xs : List Char), xs.all (fun c => ¬ c == ch) = true → splitChar ch xs = [xs]
  | [], _ => rfl
  | x :: xs, h => by
    have hpair := h
    simp only [List.all_cons, Bool.and_eq_true, decide_eq_true_eq] at hpair
    rw [splitChar, splitChar_free ch xs hpair.2]
    have : (x == ch) = false := by
      rcases hb : x == ch with _ | _
      · rfl
      · exact absurd hb hpair.1
    simp [this]

/-- `joinChar` then `splitChar` restores non-empty segment lists with
separator-free segments. -/
theorem splitChar_joinChar (ch : Char) :
    ∀ (parts : List (List Char)), parts ≠ [] →
      (∀ p ∈ parts, p.all (fun c => ¬ c == ch) = true) →
      splitChar ch (joinChar ch parts) = parts
  | [], h, _ => absurd rfl h
  | [p], _, hall => by
    simp only [joinChar]
    exact splitChar_free ch p (hall p (by simp))
  | p :: q :: rest, _, hall => by
    have hj : joinChar ch (p :: q :: rest) = p ++ ch :: joinChar ch (q :: rest) := rfl
    rw [hj, splitChar_append, splitChar_free ch p (hall p (by simp)),
      splitChar_joinChar ch (q :: rest) (by simp) (fun x hx => hall x (by simp [hx]))]
    rfl

theorem normalSeg_parts (s : List Char) (h : normalSeg s = true) :
    s.isEmpty = false ∧ s.all (fun c => ¬ c == '/') = true ∧
    (s == ['.']) = false ∧ (s == ['.', '.']) = false := by
  simp only [normalSeg, Bool.and_eq_true, decide_eq_true_eq] at h
  obtain ⟨⟨⟨h1, h2⟩, h3⟩, h4⟩ := h
  refine ⟨?_, h2, ?_, ?_⟩
  · rcases hb : s.isEmpty with _ | _
    · rfl
    · exact absurd hb h1
  · rcases hb : s == ['.'] with _ | _
    · rfl
    · exact absurd hb h3
  · rcases hb : s == ['.', '.'] with _ | _
    · rfl
    · exact absurd hb h4

/-- `cleanPush` on a normal segment just stacks it. -/
theorem cleanPush_normal (rooted : Bool) (st : List (List Char)) (s : List Char)
    (h : normalSeg s = true) : cleanPush rooted st s = s :: st := by
  obtain ⟨h1, _, h3, h4⟩ := normalSeg_parts s h
  simp [cleanPush, h1, h3, h4]

/-- A run of normal segments just stacks, in reverse. -/
theorem foldl_cleanPush_normal (rooted : Bool) :
    ∀ (segs : List (List Char)) (st : List (List Char)),
      segs.all normalSeg = true →
      segs.foldl (cleanPush rooted) st = segs.reverse ++ st
  | [], st, _ => rfl
  | s :: segs, st, h => by
    have hpair := h
    simp only [List.all_cons, Bool.and_eq_true] at hpair
    rw [List.foldl_cons, cleanPush_normal rooted st s hpair.1,
      foldl_cleanPush_normal rooted segs (s :: st) hpair.2]
    simp

theorem joinChar_append_singleton (ch : Char) :
    ∀ (D : List (List Char)) (fn : List Char),
      joinChar ch (D ++ [fn]) = (match D with
        | [] => fn
        | _ => joinChar ch D ++ ch :: fn)
  | [], fn => rfl
  | [d], fn => rfl
  | d :: e :: rest, fn => by
    have ih := joinChar_append_singleton ch (e :: rest) fn
    simp only [] at ih
    show joinChar ch (d :: (e :: (rest ++ [fn]))) = joinChar ch (d :: e :: rest) ++ ch :: fn
    rw [show joinChar ch (d :: (e :: (rest ++ [fn]))) =
        d ++ ch :: joinChar ch (e :: (rest ++ [fn])) from rfl]
    rw [show (e :: (rest ++ [fn]) : List (List Char)) = (e :: rest) ++ [fn] from rfl, ih]
    simp [joinChar]

/-- `path.Clean` of `"/" ++ segments` with normal segments. -/
theorem clean_slash_join :
    ∀ (segs : List (List Char)), segs.all normalSeg = true →
      goPathClean (String.mk ('/' :: joinChar '/' segs)) = mkRooted segs
  | [], _ => by decide
  | s :: segs, h => by
    have hne : (s :: segs) ≠ [] := by simp
    have hfree : ∀ p ∈ s :: segs, p.all (fun c => ¬ c == '/') = true := by
      intro p hp
      have := List.all_eq_true.mp h p hp
      exact (normalSeg_parts p this).2.1
    simp only [goPathClean]
    rw [show splitChar '/' ('/' :: joinChar '/' (s :: segs)) =
        [] :: splitChar '/' (joinChar '/' (s :: segs)) by
      simp only [splitChar]
      cases hsp : splitChar '/' (joinChar '/' (s :: segs)) with
      | nil => exact absurd hsp (splitChar_ne_nil _ _)
      | cons a t => simp]
    rw [splitChar_joinChar '/' (s :: segs) hne hfree]
    rw [List.foldl_cons]
    rw [show cleanPush ('/' == '/') [] [] = [] by rfl]
    rw [foldl_cleanPush_normal _ (s :: segs) [] h]
    simp [mkRooted]

/-- `path.Clean` of `"/" ++ segments ++ "/"`. -/
theorem clean_slash_join_slash :
    ∀ (segs : List (List Char)), segs.all normalSeg = true →
      goPathClean (String.mk ('/' :: (joinChar '/' segs ++ ['/']))) = mkRooted segs
  | [], _ => by decide
  | s :: segs, h => by
    have hne : (s :: segs) ≠ [] := by simp
    have hfree : ∀ p ∈ s :: segs, p.all (fun c => ¬ c == '/') = true := by
      intro p hp
      have := List.all_eq_true.mp h p hp
      exact (normalSeg_parts p this).2.1
    simp only [goPathClean]
    rw [show splitChar '/' ('/' :: (joinChar '/' (s :: segs) ++ ['/'])) =
        [] :: splitChar '/' (joinChar '/' (s :: segs) ++ ['/']) by
      simp only [splitChar]
      cases hsp : splitChar '/' (joinChar '/' (s :: segs) ++ ['/']) with
      | nil => exact absurd hsp (splitChar_ne_nil _ _)
      | cons a t => simp]
    rw [show (joinChar '/' (s :: segs) ++ ['/'] : List Char) =
        joinChar '/' (s :: segs) ++ '/' :: [] by rfl]
    rw [splitChar_append, splitChar_joinChar '/' (s :: segs) hne hfree]
    rw [show splitChar '/' ([] : List Char) = [[]] from rfl]
    rw [List.foldl_cons]
    rw [show cleanPush ('/' == '/') [] [] = [] by rfl]
    rw [List.foldl_append]
    rw [foldl_cleanPush_normal _ (s :: segs) [] h]
    rw [show List.foldl (cleanPush ('/' == '/')) ((s :: segs).reverse ++ []) [[]] =
        (s :: segs).reverse ++ [] by simp [cleanPush]]
    simp [mkRooted]

/-! ## Further path algebra: `Join`, `Base`, `Dir` on canonical rooted paths -/

theorem mkString_data (s : String) : String.mk s.data = s := rfl

theorem string_isEmpty_false (s : String) (h : s.data ≠ []) : s.isEmpty = false := by
  rcases hb : s.isEmpty with _ | _
  · rfl
  · exact absurd (congrArg String.data ((String.isEmpty_iff s).mp hb)) h

theorem all_mono {p q : Char → Bool} (l : List Char) (h : l.all p = true)
    (himp : ∀ c, p c = true → q c = true) : l.all q = true := by
  rw [List.all_eq_true] at h ⊢
  exact fun c hc => himp c (h c hc)

theorem any_false_of_all_not {p : Char → Bool} (l : List Char)
    (h : l.all (fun c => ¬ p c) = true) : l.any p = false := by
  rw [List.all_eq_true] at h
  rcases hb : l.any p with _ | _
  · rfl
  · obtain ⟨c, hc, hpc⟩ := List.any_eq_true.mp hb
    have := h c hc
    simp [hpc] at this

theorem joinChar_all {pr : Char → Bool} (ch : Char) (hch : pr ch = true) :
    ∀ (parts : List (List Char)), (∀ p ∈ parts, p.all pr = true) →
      (joinChar ch parts).all pr = true
  | [], _ => rfl
  | [p], h => by simpa [joinChar] using h p (by simp)
  | p :: q :: rest, h => by
    have ih := joinChar_all ch hch (q :: rest) (fun x hx => h x (by simp [hx]))
    have hp := h p (by simp)
    show (p ++ ch :: joinChar ch (q :: rest)).all pr = true
    simp only [List.all_append, List.all_cons, Bool.and_eq_true]
    exact ⟨hp, hch, ih⟩

theorem mkRooted_ne_nil (parts : List (List Char)) (h : parts ≠ []) :
    mkRooted parts = String.mk ('/' :: joinChar '/' parts) := by
  cases parts with
  | nil => exact absurd rfl h
  | cons a t => rfl

theorem mkRooted_data_ne_nil (parts : List (List Char)) : (mkRooted parts).data ≠ [] := by
  cases parts with
  | nil => simp [mkRooted]
  | cons a t => simp [mkRooted]

/-- `path.Join` of two non-empty strings. -/
theorem goPathJoin_two (a b : String) (ha : a.data ≠ []) (hb : b.data ≠ []) :
    goPathJoin [a, b] = goPathClean (a ++ "/" ++ b) := by
  have ha' : a.isEmpty = false := string_isEmpty_false a ha
  have hb' : b.isEmpty = false := string_isEmpty_false b hb
  have hab : (a ++ "/" ++ b).isEmpty = false := by
    apply string_isEmpty_false
    simp [String.data_append]
  have h1 : ("" : String) ++ a = a := by
    apply String.ext; simp [String.data_append]
  have ha0 : ¬ a.endPos = 0 := by
    intro h; rw [String.isEmpty, h] at ha'; simp at ha'
  have hb0 : ¬ b.endPos = 0 := by
    intro h; rw [String.isEmpty, h] at hb'; simp at hb'
  have hab0 : ¬ (a ++ "/" ++ b).endPos = 0 := by
    intro h; rw [String.isEmpty, h] at hab; simp at hab
  simp only [goPathJoin, List.foldl_cons, List.foldl_nil, String.isEmpty, beq_iff_eq]
  simp [ha0, hb0, hab0, h1]

/-- `path.Join` of a canonical rooted path and a normal final segment. -/
theorem join_mkRooted (D : List (List Char)) (b : String)
    (hD : D.all normalSeg = true) (hb : normalSeg b.data = true) :
    goPathJoin [mkRooted D, b] = mkRooted (D ++ [b.data]) := by
  obtain ⟨hb1, hb2, hb3, hb4⟩ := normalSeg_parts b.data hb
  have hbn : b.data ≠ [] := by
    cases hd : b.data with
    | nil => rw [hd] at hb1; simp at hb1
    | cons c t => simp
  rw [goPathJoin_two _ _ (mkRooted_data_ne_nil D) hbn]
  cases D with
  | nil =>
    have hdata : (mkRooted [] ++ "/" ++ b).data = '/' :: '/' :: b.data := by
      simp [String.data_append, mkRooted]
    rw [show (mkRooted [] ++ "/" ++ b : String) = String.mk ('/' :: '/' :: b.data) from
      String.ext hdata]
    have hsp : splitChar '/' ('/' :: '/' :: b.data) = [[], [], b.data] := by
      rw [show ('/' :: '/' :: b.data : List Char) = [] ++ '/' :: ('/' :: b.data) from rfl,
        splitChar_append,
        show ('/' :: b.data : List Char) = [] ++ '/' :: b.data from rfl,
        splitChar_append, splitChar_free '/' b.data hb2]
      rfl
    simp only [goPathClean, hsp]
    rw [show List.foldl (cleanPush ('/' == '/')) [] [[], [], b.data] = [b.data] by
      simp only [List.foldl_cons, List.foldl_nil]
      rw [show cleanPush ('/' == '/') [] [] = [] from rfl,
        show cleanPush ('/' == '/') [] [] = [] from rfl,
        cleanPush_normal _ [] b.data hb]]
    simp [mkRooted, joinChar]
  | cons d ds =>
    have hdata : (mkRooted (d :: ds) ++ "/" ++ b).data =
        '/' :: joinChar '/' ((d :: ds) ++ [b.data]) := by
      simp only [mkRooted, String.data_append]
      rw [joinChar_append_singleton]
      simp
    rw [show (mkRooted (d :: ds) ++ "/" ++ b : String) =
        String.mk ('/' :: joinChar '/' ((d :: ds) ++ [b.data])) from String.ext hdata]
    exact clean_slash_join ((d :: ds) ++ [b.data]) (by
      have hD' : normalSeg d = true ∧ ∀ x ∈ ds, normalSeg x = true := by
        simpa [List.all_eq_true] using hD
      simp only [List.all_append, List.all_cons, List.all_nil, Bool.and_eq_true,
        List.all_eq_true]
      exact ⟨⟨hD'.1, hD'.2⟩, hb, trivial⟩)

/-- `path.Base` of a canonical rooted path ending in a normal segment. -/
theorem base_mkRooted (D : List (List Char)) (fn : List Char)
    (hD : D.all normalSeg = true) (hfn : normalSeg fn = true) :
    goPathBase (mkRooted (D ++ [fn])) = String.mk fn := by
  obtain ⟨hf1, hf2, _, _⟩ := normalSeg_parts fn hfn
  have hfn_ne : fn ≠ [] := by
    cases hd : fn with
    | nil => rw [hd] at hf1; simp at hf1
    | cons c t => simp
  have hall : ∀ p ∈ D ++ [fn], p.all (fun c => ¬ c == '/') = true := by
    intro p hp
    rcases List.mem_append.mp hp with h | h
    · exact (normalSeg_parts p (List.all_eq_true.mp hD p h)).2.1
    · rw [List.mem_singleton.mp h]; exact hf2
  have hX : ∃ X, joinChar '/' (D ++ [fn]) = X ++ fn := by
    rw [joinChar_append_singleton]
    cases D with
    | nil => exact ⟨[], rfl⟩
    | cons d ds => exact ⟨joinChar '/' (d :: ds) ++ ['/'], by simp⟩
  obtain ⟨X, hXeq⟩ := hX
  rw [mkRooted_ne_nil (D ++ [fn]) (by simp)]
  cases hfr : fn.reverse with
  | nil => exact absurd (by simpa using congrArg List.reverse hfr) hfn_ne
  | cons c0 t0 =>
    have hc0 : (c0 == '/') = false := by
      have : fn.reverse.all (fun c => ¬ c == '/') = true := by
        rw [List.all_reverse]; exact hf2
      rw [hfr] at this
      simp only [List.all_cons, Bool.and_eq_true, decide_eq_true_eq] at this
      rcases hb : c0 == '/' with _ | _
      · rfl
      · exact absurd hb this.1
    have hdrop : ('/' :: joinChar '/' (D ++ [fn])).reverse.dropWhile (· == '/') =
        ('/' :: joinChar '/' (D ++ [fn])).reverse := by
      rw [show ('/' :: joinChar '/' (D ++ [fn])).reverse =
          (joinChar '/' (D ++ [fn])).reverse ++ ['/'] by simp]
      rw [hXeq, List.reverse_append, hfr]
      simp [List.dropWhile_cons, hc0]
    have hred : goPathBase (String.mk ('/' :: joinChar '/' (D ++ [fn]))) =
        (let q := (('/' :: joinChar '/' (D ++ [fn])).reverse.dropWhile (· == '/')).reverse
         let last := (splitChar '/' q).getLastD []
         if last.isEmpty then "/" else String.mk last) := rfl
    rw [hred]
    simp only [hdrop, List.reverse_reverse]
    have hsp : splitChar '/' ('/' :: joinChar '/' (D ++ [fn])) = [] :: (D ++ [fn]) := by
      rw [show splitChar '/' ('/' :: joinChar '/' (D ++ [fn])) =
          [] :: splitChar '/' (joinChar '/' (D ++ [fn])) by
        simp only [splitChar]
        cases hsp2 : splitChar '/' (joinChar '/' (D ++ [fn])) with
        | nil => exact absurd hsp2 (splitChar_ne_nil _ _)
        | cons a t => simp]
      rw [splitChar_joinChar '/' (D ++ [fn]) (by simp) hall]
    rw [hsp, show ([] :: (D ++ [fn]) : List (List Char)) = ([] :: D) ++ [fn] from rfl,
      List.getLastD_concat]
    simp [hf1]

/-- `path.Dir` of a canonical rooted path ending in a normal segment. -/
theorem dir_mkRooted (D : List (List Char)) (fn : List Char)
    (hD : D.all normalSeg = true) (hfn : normalSeg fn = true) :
    goPathDir (mkRooted (D ++ [fn])) = mkRooted D := by
  obtain ⟨hf1, hf2, _, _⟩ := normalSeg_parts fn hfn
  have hrev : fn.reverse.all (fun c => ¬ c == '/') = true := by
    rw [List.all_reverse]; exact hf2
  rw [mkRooted_ne_nil (D ++ [fn]) (by simp)]
  simp only [goPathDir]
  cases D with
  | nil =>
    have hdata : (String.mk ('/' :: joinChar '/' ([] ++ [fn]))).data.reverse =
        fn.reverse ++ ['/'] := by simp [joinChar]
    rw [hdata, dropWhile_append_all fn.reverse ['/'] hrev]
    decide
  | cons d ds =>
    have hdata : (String.mk ('/' :: joinChar '/' ((d :: ds) ++ [fn]))).data.reverse =
        fn.reverse ++ '/' :: ((joinChar '/' (d :: ds)).reverse ++ ['/']) := by
      show ('/' :: joinChar '/' ((d :: ds) ++ [fn])).reverse =
        fn.reverse ++ '/' :: ((joinChar '/' (d :: ds)).reverse ++ ['/'])
      rw [joinChar_append_singleton]
      simp
    rw [hdata, dropWhile_append_all fn.reverse _ hrev]
    rw [show List.dropWhile (fun c => ¬ c == '/')
          ('/' :: ((joinChar '/' (d :: ds)).reverse ++ ['/'])) =
        '/' :: ((joinChar '/' (d :: ds)).reverse ++ ['/']) by
      simp [List.dropWhile_cons]]
    rw [show ('/' :: ((joinChar '/' (d :: ds)).reverse ++ ['/'])).reverse =
        '/' :: (joinChar '/' (d :: ds) ++ ['/']) by simp]
    exact clean_slash_join_slash (d :: ds) hD

/-! ## `Ext` / `TrimSuffix` recovery -/

theorem dropWhile_head_false {p : Char → Bool} :
    ∀ (l : List Char) (h t : _), l.dropWhile p = h :: t → p h = false
  | [], h, t, he => by simp at he
  | c :: cs, h, t, he => by
    rcases hb : p c with _ | _
    · rw [List.dropWhile_cons, hb] at he
      simp at he
      rw [← he.1]; exact hb
    · rw [List.dropWhile_cons, hb] at he
      simp at he
      exact dropWhile_head_false cs h t he

theorem isSuffixOf_append (u t : List Char) : u.isSuffixOf (t ++ u) = true := by
  simp [List.isSuffixOf]

theorem isPrefixOf_nil_left (l : List Char) : List.isPrefixOf [] l = true := by
  cases l with
  | nil => rfl
  | cons a t => rfl

theorem goTrimSuffixStr_empty (s : String) : goTrimSuffixStr s "" = s := by
  have h1 : ("" : String).data.isSuffixOf s.data = true := by
    show List.isSuffixOf [] s.data = true
    simp [List.isSuffixOf, isPrefixOf_nil_left]
  simp only [goTrimSuffixStr, h1, if_pos]
  apply String.ext
  simp [show ("" : String).data = [] from rfl]

theorem goTrimSuffixStr_append (t u : List Char) :
    goTrimSuffixStr (String.mk (t ++ u)) (String.mk u) = String.mk t := by
  have h1 : (String.mk u).data.isSuffixOf (String.mk (t ++ u)).data = true :=
    isSuffixOf_append u t
  simp only [goTrimSuffixStr, h1, if_pos]
  apply String.ext
  simp [List.take_left, show (String.mk (t ++ u)).data = t ++ u from rfl,
    show (String.mk u).data = u from rfl]

/-- `strings.TrimSuffix(base, path.Ext(base))` followed by re-appending the
extension restores `base`. -/
theorem trimExt_append (s : String) :
    goTrimSuffixStr s (goPathExt s) ++ goPathExt s = s := by
  simp only [goPathExt]
  by_cases hlen : ((s.data.reverse.takeWhile (fun c => ¬ c == '/')).takeWhile
      (fun c => ¬ c == '.')).length = (s.data.reverse.takeWhile (fun c => ¬ c == '/')).length
  · simp only [if_pos hlen]
    rw [goTrimSuffixStr_empty]
    apply String.ext
    simp [show ("" : String).data = [] from rfl]
  · simp only [if_neg hlen]
    set seg := s.data.reverse.takeWhile (fun c => ¬ c == '/') with hseg
    set pre := seg.takeWhile (fun c => ¬ c == '.') with hpre
    have hsplit : pre ++ seg.dropWhile (fun c => ¬ c == '.') = seg := by
      have h0 := List.takeWhile_append_dropWhile (p := fun c => ¬ c == '.') (l := seg)
      rw [← hpre] at h0
      exact h0
    have hd : seg.dropWhile (fun c => ¬ c == '.') ≠ [] := by
      intro hnil
      rw [hnil, List.append_nil] at hsplit
      exact hlen (by rw [hsplit])
    cases hdw : seg.dropWhile (fun c => ¬ c == '.') with
    | nil => exact absurd hdw hd
    | cons h0 d' =>
      have hh0 : h0 = '.' := by
        have := dropWhile_head_false seg h0 d' hdw
        simp only [decide_eq_false_iff_not, Decidable.not_not] at this
        exact eq_of_beq this
      rw [hdw, hh0] at hsplit
      have hrev : ∃ rest, s.data.reverse = (pre ++ '.' :: d') ++ rest := by
        refine ⟨s.data.reverse.dropWhile (fun c => ¬ c == '/'), ?_⟩
        conv_lhs => rw [← List.takeWhile_append_dropWhile
          (p := fun c => ¬ c == '/') (l := s.data.reverse)]
        rw [← hseg, hsplit]
      obtain ⟨rest, hrest⟩ := hrev
      have hdata : s.data = (rest.reverse ++ d'.reverse) ++ '.' :: pre.reverse := by
        have h2 := congrArg List.reverse hrest
        rw [List.reverse_reverse] at h2
        rw [h2]; simp
      have hs : s = String.mk ((rest.reverse ++ d'.reverse) ++ '.' :: pre.reverse) :=
        String.ext hdata
      rw [hs]
      rw [show ('.' :: pre.reverse : List Char) = (String.mk ('.' :: pre.reverse)).data from rfl,
        goTrimSuffixStr_append]
      apply String.ext
      simp [String.data_append]

/-! ## Structured URLs `scheme://host/.../file` and their reparsing -/

/-- Characters safe in every modelled URL component. -/
def urlSafeChar (c : Char) : Bool :=
  isURLModelChar c && ¬ c == '#' && ¬ c == '?' && ¬ c == '/' && ¬ c == ':' && ¬ c == '@'

/-- The raw-text chunk a query contributes. -/
def qChunk : Option (List Char) → List Char
  | some qs => '?' :: qs
  | none => []

/-- The raw-text chunk a fragment contributes. -/
def fragChunk : Option (List Char) → List Char
  | some fs => '#' :: fs
  | none => []

/-- The raw text of `scheme://host/seg1/../segN/fn` with optional query and
fragment. -/
def urlOf (scheme host : List Char) (D : List (List Char)) (fn : List Char)
    (q frag : Option (List Char)) : String :=
  String.mk (scheme ++ ':' :: '/' :: '/' :: (host ++ '/' :: joinChar '/' (D ++ [fn])
    ++ qChunk q ++ fragChunk frag))

/-- The filename produced from `fn` by one canonicalization pass:
suffix-stripped stem plus original extension. -/
def pnData (fn : List Char) : List Char :=
  (stripWPSuffixes (goTrimSuffixStr (String.mk fn) (goPathExt (String.mk fn)))
    ++ goPathExt (String.mk fn)).data

theorem data_mk (l : List Char) : (String.mk l).data = l := rfl

theorem urlSafe_spec (c : Char) (h : urlSafeChar c = true) :
    isURLModelChar c = true ∧ (c == '#') = false ∧ (c == '?') = false ∧
    (c == '/') = false ∧ (c == ':') = false ∧ (c == '@') = false := by
  simp only [urlSafeChar, Bool.and_eq_true, decide_eq_true_eq] at h
  obtain ⟨⟨⟨⟨⟨h1, h2⟩, h3⟩, h4⟩, h5⟩, h6⟩ := h
  exact ⟨h1, Bool.eq_false_iff.mpr h2, Bool.eq_false_iff.mpr h3,
    Bool.eq_false_iff.mpr h4, Bool.eq_false_iff.mpr h5, Bool.eq_false_iff.mpr h6⟩

theorem cutAtFirst_none (cs : List Char) (ch : Char)
    (h : cs.all (fun c => ¬ c == ch) = true) : cutAtFirst cs ch = (cs, none) := by
  simp only [cutAtFirst]
  rw [dropWhile_all cs h, takeWhile_all cs h]

theorem cutAtFirst_some (xs ys : List Char) (ch : Char)
    (h : xs.all (fun c => ¬ c == ch) = true) :
    cutAtFirst (xs ++ ch :: ys) ch = (xs, some ys) := by
  simp only [cutAtFirst]
  rw [dropWhile_append_all xs (ch :: ys) h, takeWhile_append_all xs (ch :: ys) h]
  have h1 : List.dropWhile (fun c => ¬ c == ch) (ch :: ys) = ch :: ys := by
    simp [List.dropWhile_cons]
  have h2 : List.takeWhile (fun c => ¬ c == ch) (ch :: ys) = [] := by
    simp [List.takeWhile_cons]
  rw [h1, h2]
  simp

theorem getScheme_append (scheme rest : List Char) (h1 : scheme ≠ [])
    (h2 : isSchemeHeadChar (scheme.headD 'a') = true)
    (h3 : scheme.all isSchemeTailChar = true) :
    getScheme (scheme ++ ':' :: rest) = some (scheme, rest) := by
  cases scheme with
  | nil => exact absurd rfl h1
  | cons c0 tl =>
    have hh : isSchemeHeadChar c0 = true := by simpa using h2
    have ht : (c0 :: tl ++ ':' :: rest).takeWhile isSchemeTailChar = c0 :: tl := by
      rw [takeWhile_append_all _ _ h3]
      simp [List.takeWhile_cons, show isSchemeTailChar ':' = false by decide]
    have hd : (c0 :: tl ++ ':' :: rest).dropWhile isSchemeTailChar = ':' :: rest := by
      rw [dropWhile_append_all _ _ h3]
      simp [List.dropWhile_cons, show isSchemeTailChar ':' = false by decide]
    show getScheme (c0 :: (tl ++ ':' :: rest)) = some (c0 :: tl, rest)
    simp only [getScheme, hh]
    rw [show (c0 :: (tl ++ ':' :: rest) : List Char) = (c0 :: tl) ++ ':' :: rest from rfl,
      ht, hd]
    simp

/-- Reparsing a structured `scheme://host/.../file` URL recovers its
components. -/
theorem parse_urlOf (scheme host : List Char) (D : List (List Char)) (fn : List Char)
    (q frag : Option (List Char))
    (hs1 : scheme ≠ []) (hs2 : isSchemeHeadChar (scheme.headD 'a') = true)
    (hs3 : scheme.all (fun c => isSchemeTailChar c && urlSafeChar c) = true)
    (hh1 : host ≠ []) (hh2 : host.all urlSafeChar = true)
    (hD : D.all (fun seg => normalSeg seg && seg.all urlSafeChar) = true)
    (hf2 : fn.all urlSafeChar = true)
    (hq : ∀ qs, q = some qs → qs.all (fun c => isURLModelChar c && ¬ c == '#') = true)
    (hfr : ∀ fs, frag = some fs → fs.all isURLModelChar = true) :
    parseGoURL (urlOf scheme host D fn q frag) =
      some ⟨String.mk (scheme.map Char.toLower), String.mk host,
        mkRooted (D ++ [fn]), Option.map String.mk q,
        (Option.map String.mk frag).getD ""⟩ := by
  have hsliftSafe : scheme.all urlSafeChar = true :=
    all_mono scheme hs3 (fun c h => by simp only [Bool.and_eq_true] at h; exact h.2)
  have hsliftTail : scheme.all isSchemeTailChar = true :=
    all_mono scheme hs3 (fun c h => by simp only [Bool.and_eq_true] at h; exact h.1)
  have hJsafeAll : ∀ pr : Char → Bool, pr '/' = true →
      (∀ c, urlSafeChar c = true → pr c = true) →
      (joinChar '/' (D ++ [fn])).all pr = true := by
    intro pr hsl himp
    apply joinChar_all '/' hsl
    intro p hp
    rcases List.mem_append.mp hp with hmem | hmem
    · have hx := List.all_eq_true.mp hD p hmem
      simp only [Bool.and_eq_true] at hx
      exact all_mono p hx.2 himp
    · rw [List.mem_singleton.mp hmem]
      exact all_mono fn hf2 himp
  have hnohashOf : ∀ (l : List Char), l.all urlSafeChar = true →
      l.all (fun c => ¬ c == '#') = true :=
    fun l hl => all_mono l hl (fun c h => by simp [(urlSafe_spec c h).2.1])
  have hnoqOf : ∀ (l : List Char), l.all urlSafeChar = true →
      l.all (fun c => ¬ c == '?') = true :=
    fun l hl => all_mono l hl (fun c h => by simp [(urlSafe_spec c h).2.2.1])
  have hmodelOf : ∀ (l : List Char), l.all urlSafeChar = true →
      l.all isURLModelChar = true :=
    fun l hl => all_mono l hl (fun c h => (urlSafe_spec c h).1)
  have hJhash := hJsafeAll (fun c => ¬ c == '#') (by decide)
    (fun c h => by simp [(urlSafe_spec c h).2.1])
  have hJq := hJsafeAll (fun c => ¬ c == '?') (by decide)
    (fun c h => by simp [(urlSafe_spec c h).2.2.1])
  have hJm := hJsafeAll isURLModelChar (by decide) (fun c h => (urlSafe_spec c h).1)
  have hBhash : (scheme ++ ':' :: '/' :: '/' ::
      (host ++ '/' :: joinChar '/' (D ++ [fn]))).all (fun c => ¬ c == '#') = true := by
    simp only [List.all_append, List.all_cons]
    rw [hnohashOf scheme hsliftSafe, hnohashOf host hh2, hJhash]
    decide
  have hBq : (scheme ++ ':' :: '/' :: '/' ::
      (host ++ '/' :: joinChar '/' (D ++ [fn]))).all (fun c => ¬ c == '?') = true := by
    simp only [List.all_append, List.all_cons]
    rw [hnoqOf scheme hsliftSafe, hnoqOf host hh2, hJq]
    decide
  have hschemeM := hmodelOf scheme hsliftSafe
  have hhostM := hmodelOf host hh2
  have hgs : getScheme (scheme ++ ':' :: '/' :: '/' ::
      (host ++ '/' :: joinChar '/' (D ++ [fn]))) =
      some (scheme, '/' :: '/' :: (host ++ '/' :: joinChar '/' (D ++ [fn]))) :=
    getScheme_append scheme _ hs1 hs2 hsliftTail
  have hnoslash : host.all (fun c => ¬ c == '/') = true :=
    all_mono host hh2 (fun c h => by simp [(urlSafe_spec c h).2.2.2.1])
  have hTW : (host ++ '/' :: joinChar '/' (D ++ [fn])).takeWhile (fun c => ¬ c == '/') =
      host := by
    rw [takeWhile_append_all _ _ hnoslash]
    simp [List.takeWhile_cons]
  have hDW : (host ++ '/' :: joinChar '/' (D ++ [fn])).dropWhile (fun c => ¬ c == '/') =
      '/' :: joinChar '/' (D ++ [fn]) := by
    rw [dropWhile_append_all _ _ hnoslash]
    simp [List.dropWhile_cons]
  have hAny : host.any (· == '@') = false :=
    any_false_of_all_not host
      (all_mono host hh2 (fun c h => by simp [(urlSafe_spec c h).2.2.2.2.2]))
  have hSE : (String.mk (scheme.map Char.toLower)).isEmpty = false := by
    apply string_isEmpty_false
    simp only [data_mk, ne_eq, List.map_eq_nil_iff]
    exact hs1
  have hBM : (scheme ++ ':' :: '/' :: '/' ::
      (host ++ '/' :: joinChar '/' (D ++ [fn]))).all isURLModelChar = true := by
    simp only [List.all_append, List.all_cons]
    rw [hschemeM, hhostM, hJm]
    decide
  rw [mkRooted_ne_nil (D ++ [fn]) (by simp)]
  rcases q with _ | qs
  · rcases frag with _ | fs
    · have hdata : (urlOf scheme host D fn none none).data =
          scheme ++ ':' :: '/' :: '/' :: (host ++ '/' :: joinChar '/' (D ++ [fn])) := by
        simp [urlOf, qChunk, fragChunk, data_mk]
      have hM : (urlOf scheme host D fn none none).data.all isURLModelChar = true := by
        rw [hdata]; exact hBM
      have hch : cutAtFirst (urlOf scheme host D fn none none).data '#' =
          (scheme ++ ':' :: '/' :: '/' :: (host ++ '/' :: joinChar '/' (D ++ [fn])),
            none) := by
        rw [hdata]; exact cutAtFirst_none _ '#' hBhash
      have hcq : cutAtFirst (scheme ++ ':' :: '/' :: '/' ::
          (host ++ '/' :: joinChar '/' (D ++ [fn]))) '?' =
          (scheme ++ ':' :: '/' :: '/' :: (host ++ '/' :: joinChar '/' (D ++ [fn])),
            none) :=
        cutAtFirst_none _ '?' hBq
      simp only [parseGoURL, hM, hch, hcq, hgs, hSE, hTW, hDW, hAny]
      simp
    · have hfsM := hfr fs rfl
      have hdata : (urlOf scheme host D fn none (some fs)).data =
          (scheme ++ ':' :: '/' :: '/' :: (host ++ '/' :: joinChar '/' (D ++ [fn]))) ++
            '#' :: fs := by
        simp [urlOf, qChunk, fragChunk, data_mk]
      have hM : (urlOf scheme host D fn none (some fs)).data.all isURLModelChar = true := by
        rw [hdata]
        simp only [List.all_append, List.all_cons]
        rw [hschemeM, hhostM, hJm, hfsM]
        decide
      have hch : cutAtFirst (urlOf scheme host D fn none (some fs)).data '#' =
          (scheme ++ ':' :: '/' :: '/' :: (host ++ '/' :: joinChar '/' (D ++ [fn])),
            some fs) := by
        rw [hdata]; exact cutAtFirst_some _ _ '#' hBhash
      have hcq : cutAtFirst (scheme ++ ':' :: '/' :: '/' ::
          (host ++ '/' :: joinChar '/' (D ++ [fn]))) '?' =
          (scheme ++ ':' :: '/' :: '/' :: (host ++ '/' :: joinChar '/' (D ++ [fn])),
            none) :=
        cutAtFirst_none _ '?' hBq
      simp only [parseGoURL, hM, hch, hcq, hgs, hSE, hTW, hDW, hAny]
      simp
  · have hqsBoth := hq qs rfl
    have hqsM : qs.all isURLModelChar = true :=
      all_mono qs hqsBoth (fun c hc => by
        simp only [Bool.and_eq_true] at hc; exact hc.1)
    have hqsH : qs.all (fun c => ¬ c == '#') = true :=
      all_mono qs hqsBoth (fun c hc => by
        simp only [Bool.and_eq_true] at hc; exact hc.2)
    have hABhash : ((scheme ++ ':' :: '/' :: '/' ::
        (host ++ '/' :: joinChar '/' (D ++ [fn]))) ++ '?' :: qs).all
        (fun c => ¬ c == '#') = true := by
      simp only [List.all_append, List.all_cons]
      rw [hnohashOf scheme hsliftSafe, hnohashOf host hh2, hJhash, hqsH]
      decide
    have hcq : cutAtFirst ((scheme ++ ':' :: '/' :: '/' ::
        (host ++ '/' :: joinChar '/' (D ++ [fn]))) ++ '?' :: qs) '?' =
        (scheme ++ ':' :: '/' :: '/' :: (host ++ '/' :: joinChar '/' (D ++ [fn])),
          some qs) :=
      cutAtFirst_some _ _ '?' hBq
    rcases frag with _ | fs
    · have hdata : (urlOf scheme host D fn (some qs) none).data =
          (scheme ++ ':' :: '/' :: '/' :: (host ++ '/' :: joinChar '/' (D ++ [fn]))) ++
            '?' :: qs := by
        simp [urlOf, qChunk, fragChunk, data_mk]
      have hM : (urlOf scheme host D fn (some qs) none).data.all isURLModelChar = true := by
        rw [hdata]
        simp only [List.all_append, List.all_cons]
        rw [hschemeM, hhostM, hJm, hqsM]
        decide
      have hch : cutAtFirst (urlOf scheme host D fn (some qs) none).data '#' =
          ((scheme ++ ':' :: '/' :: '/' :: (host ++ '/' :: joinChar '/' (D ++ [fn]))) ++
            '?' :: qs, none) := by
        rw [hdata]; exact cutAtFirst_none _ '#' hABhash
      simp only [parseGoURL, hM, hch, hcq, hgs, hSE, hTW, hDW, hAny]
      simp
    · have hfsM := hfr fs rfl
      have hdata : (urlOf scheme host D fn (some qs) (some fs)).data =
          ((scheme ++ ':' :: '/' :: '/' :: (host ++ '/' :: joinChar '/' (D ++ [fn]))) ++
            '?' :: qs) ++ '#' :: fs := by
        simp [urlOf, qChunk, fragChunk, data_mk]
      have hM : (urlOf scheme host D fn (some qs) (some fs)).data.all
          isURLModelChar = true := by
        rw [hdata]
        simp only [List.all_append, List.all_cons]
        rw [hschemeM, hhostM, hJm, hqsM, hfsM]
        decide
      have hch : cutAtFirst (urlOf scheme host D fn (some qs) (some fs)).data '#' =
          ((scheme ++ ':' :: '/' :: '/' :: (host ++ '/' :: joinChar '/' (D ++ [fn]))) ++
            '?' :: qs, some fs) := by
        rw [hdata]; exact cutAtFirst_some _ _ '#' hABhash
      simp only [parseGoURL, hM, hch, hcq, hgs, hSE, hTW, hDW, hAny]
      simp

/-- `url.URL.String` on a parsed `scheme://host` URL with a rooted path. -/
theorem urlString_of (scheme host : List Char) (parts : List (List Char))
    (q frag : Option (List Char)) (hs1 : scheme ≠ []) (hh1 : host ≠ [])
    (hpne : parts ≠ [])
    (hfrne : ∀ fs, frag = some fs → fs ≠ []) :
    urlString ⟨String.mk scheme, String.mk host, mkRooted parts,
      Option.map String.mk q, (Option.map String.mk frag).getD ""⟩ =
    String.mk (scheme ++ ':' :: '/' :: '/' :: (host ++ '/' :: joinChar '/' parts
      ++ qChunk q ++ fragChunk frag)) := by
  have hse : (String.mk scheme).isEmpty = false :=
    string_isEmpty_false _ (by simpa [data_mk] using hs1)
  have hhe : (String.mk host).isEmpty = false :=
    string_isEmpty_false _ (by simpa [data_mk] using hh1)
  have hpe : (mkRooted parts).isEmpty = false :=
    string_isEmpty_false _ (mkRooted_data_ne_nil parts)
  have hhead : (mkRooted parts).data.headD ' ' = '/' := by
    rw [mkRooted_ne_nil parts hpne]
    rfl
  rcases frag with _ | fs
  · rcases q with _ | qs
    · apply String.ext
      simp [urlString, hse, hhe, hpe, hhead, String.data_append, data_mk, qChunk,
        fragChunk, mkRooted_ne_nil parts hpne, show ("" : String).isEmpty = true from rfl]
    · apply String.ext
      simp [urlString, hse, hhe, hpe, hhead, String.data_append, data_mk, qChunk,
        fragChunk, mkRooted_ne_nil parts hpne, show ("" : String).isEmpty = true from rfl]
  · have hfe : (String.mk fs).isEmpty = false :=
      string_isEmpty_false _ (by simpa [data_mk] using hfrne fs rfl)
    rcases q with _ | qs
    · apply String.ext
      simp [urlString, hse, hhe, hpe, hhead, hfe, String.data_append, data_mk, qChunk,
        fragChunk, mkRooted_ne_nil parts hpne, show ("" : String).isEmpty = true from rfl]
    · apply String.ext
      simp [urlString, hse, hhe, hpe, hhead, hfe, String.data_append, data_mk, qChunk,
        fragChunk, mkRooted_ne_nil parts hpne, show ("" : String).isEmpty = true from rfl]

/-- One `toOriginalURL` pass on a structured URL rewrites exactly the
filename, to its suffix-stripped form. -/
theorem toOriginalURL_pass (scheme host : List Char) (D : List (List Char)) (fn : List Char)
    (q frag : Option (List Char))
    (hs1 : scheme ≠ []) (hs2 : isSchemeHeadChar (scheme.headD 'a') = true)
    (hs3 : scheme.all (fun c => isSchemeTailChar c && urlSafeChar c) = true)
    (hs4 : scheme.map Char.toLower = scheme)
    (hh1 : host ≠ []) (hh2 : host.all urlSafeChar = true)
    (hD : D.all (fun seg => normalSeg seg && seg.all urlSafeChar) = true)
    (hf1 : normalSeg fn = true) (hf2 : fn.all urlSafeChar = true)
    (hq : ∀ qs, q = some qs → qs.all (fun c => isURLModelChar c && ¬ c == '#') = true)
    (hfr : ∀ fs, frag = some fs → fs.all isURLModelChar = true)
    (hfrne : ∀ fs, frag = some fs → fs ≠ [])
    (hp1 : normalSeg (pnData fn) = true) :
    toOriginalURL (urlOf scheme host D fn q frag) =
      urlOf scheme host D (pnData fn) q frag := by
  have hDn : D.all normalSeg = true := by
    rw [List.all_eq_true] at hD ⊢
    intro seg hseg
    have h := hD seg hseg
    simp only [Bool.and_eq_true] at h
    exact h.1
  have hu := parse_urlOf scheme host D fn q frag hs1 hs2 hs3 hh1 hh2 hD hf2 hq hfr
  rw [hs4] at hu
  simp only [toOriginalURL, hu]
  rw [base_mkRooted D fn hDn hf1, dir_mkRooted D fn hDn hf1]
  rw [join_mkRooted D _ hDn hp1]
  rw [urlString_of scheme host
    (D ++ [(stripWPSuffixes (goTrimSuffixStr (String.mk fn) (goPathExt (String.mk fn)))
      ++ goPathExt (String.mk fn)).data]) q frag hs1 hh1 (by simp) hfrne]
  rfl

/-- C5: `toOriginalURL` is idempotent on well-formed `scheme://host/.../file`
URLs (lower-case scheme, non-empty host, clean path of normal segments,
optional query and non-empty fragment of safe characters) provided the
suffix-stripped filename produced by the first pass is itself stable under
suffix stripping.  Unconditional idempotence fails: a filename can carry a
resize suffix hidden behind a scaled suffix, so the first pass exposes it
and the second pass strips it (see the counterexample). -/
theorem toOriginalURL_idempotent (scheme host : List Char) (D : List (List Char))
    (fn : List Char) (q frag : Option (List Char))
    (hs1 : scheme ≠ []) (hs2 : isSchemeHeadChar (scheme.headD 'a') = true)
    (hs3 : scheme.all (fun c => isSchemeTailChar c && urlSafeChar c) = true)
    (hs4 : scheme.map Char.toLower = scheme)
    (hh1 : host ≠ []) (hh2 : host.all urlSafeChar = true)
    (hD : D.all (fun seg => normalSeg seg && seg.all urlSafeChar) = true)
    (hf1 : normalSeg fn = true) (hf2 : fn.all urlSafeChar = true)
    (hq : ∀ qs, q = some qs → qs.all (fun c => isURLModelChar c && ¬ c == '#') = true)
    (hfr : ∀ fs, frag = some fs → fs.all isURLModelChar = true)
    (hfrne : ∀ fs, frag = some fs → fs ≠ [])
    (hp1 : normalSeg (pnData fn) = true)
    (hp2 : (pnData fn).all urlSafeChar = true)
    (hstem : stripWPSuffixes (goTrimSuffixStr (String.mk (pnData fn))
        (goPathExt (String.mk (pnData fn)))) =
      goTrimSuffixStr (String.mk (pnData fn)) (goPathExt (String.mk (pnData fn)))) :
    toOriginalURL (toOriginalURL (urlOf scheme host D fn q frag)) =
      toOriginalURL (urlOf scheme host D fn q frag) := by
  have hfix : pnData (pnData fn) = pnData fn := by
    show (stripWPSuffixes (goTrimSuffixStr (String.mk (pnData fn))
        (goPathExt (String.mk (pnData fn))))
      ++ goPathExt (String.mk (pnData fn))).data = pnData fn
    rw [hstem, trimExt_append (String.mk (pnData fn))]
  rw [toOriginalURL_pass scheme host D fn q frag hs1 hs2 hs3 hs4 hh1 hh2 hD hf1 hf2
    hq hfr hfrne hp1]
  rw [toOriginalURL_pass scheme host D (pnData fn) q frag hs1 hs2 hs3 hs4 hh1 hh2 hD
    hp1 hp2 hq hfr hfrne (by rw [hfix]; exact hp1)]
  rw [hfix]

/-- Witness: the C5 idempotence theorem applied to
`https://example.com/wp/a-300x200.jpg?v=2#top`. -/
theorem toOriginalURL_idempotent_witness :
    toOriginalURL (toOriginalURL (urlOf "https".data "example.com".data
      [['w', 'p']] "a-300x200.jpg".data (some "v=2".data) (some "top".data))) =
    toOriginalURL (urlOf "https".data "example.com".data
      [['w', 'p']] "a-300x200.jpg".data (some "v=2".data) (some "top".data)) :=
  toOriginalURL_idempotent "https".data "example.com".data [['w', 'p']]
    "a-300x200.jpg".data (some "v=2".data) (some "top".data)
    (by decide) (by decide) (by decide) (by decide) (by decide) (by decide)
    (by decide) (by decide) (by decide)
    (fun qs h => by cases h; decide)
    (fun fs h => by cases h; decide)
    (fun fs h => by cases h; decide)
    (by decide) (by decide) (by decide)

/-! ## Branch equations for the video pass -/

theorem rwVidL_nil (slug : String) (ctx : Option String) : rewriteVideosL slug ctx [] = ([], []) := rfl

theorem rwVidL_cons (slug : String) (ctx : Option String) (n : Node) (rest : List Node) :
    rewriteVideosL slug ctx (n :: rest) =
      ((rewriteVideosN slug ctx n).1 :: (rewriteVideosL slug ctx rest).1,
       (rewriteVideosN slug ctx n).2 ++ (rewriteVideosL slug ctx rest).2) := by
  simp only [rewriteVideosL]

theorem rwVid_text (slug : String) (ctx : Option String) (s : String) :
    rewriteVideosN slug ctx (.text s) = (.text s, []) := rfl

theorem rwVid_video_skip (slug : String) (ctx : Option String) (attrs : Attrs) (ch : List Node)
    (h : (goTrimSpace (videoDiscoveredSrc ctx attrs ch)).isEmpty = true) :
    rewriteVideosN slug ctx (.elem "video" attrs ch) =
      (.elem "video" attrs (rewriteVideosL slug ctx ch).1, (rewriteVideosL slug ctx ch).2) := by
  simp only [rewriteVideosN, if_pos rfl, h, if_true]

theorem rwVid_video_rw (slug : String) (ctx : Option String) (attrs : Attrs) (ch : List Node)
    (h : (goTrimSpace (videoDiscoveredSrc ctx attrs ch)).isEmpty = false) :
    rewriteVideosN slug ctx (.elem "video" attrs ch) =
      (.elem "video"
         (setAttr attrs "src" (videoRelPath slug (videoDiscoveredSrc ctx attrs ch)))
         (rewriteVideosL slug (some (videoRelPath slug (videoDiscoveredSrc ctx attrs ch))) ch).1,
       (videoDiscoveredSrc ctx attrs ch,
          videoDestPath slug (videoDiscoveredSrc ctx attrs ch)) ::
         (rewriteVideosL slug (some (videoRelPath slug (videoDiscoveredSrc ctx attrs ch))) ch).2) := by
  simp only [rewriteVideosN, if_pos rfl, h, Bool.false_eq_true, if_false, if_true]

theorem rwVid_other (slug : String) (ctx : Option String) (tag : String) (attrs : Attrs)
    (ch : List Node) (h : ¬ tag = "video") :
    rewriteVideosN slug ctx (.elem tag attrs ch) =
      (.elem tag
         (match ctx with
          | some r => if tag = "source" then setAttr attrs "src" r else attrs
          | none => attrs)
         (rewriteVideosL slug ctx ch).1,
       (rewriteVideosL slug ctx ch).2) := by
  simp only [rewriteVideosN, if_neg h]

mutual

/-- The video pass leaves image contexts and anchor attributes unchanged
(it only touches the `src` of `video` and `source` elements). -/
theorem vidPassImgN_spec (slug : String) :
    ∀ (ctx : Option String) (g : Bool) (n : Node),
      imgsCtxN g (rewriteVideosN slug ctx n).1 = imgsCtxN g n ∧
      anchorsCtxN (rewriteVideosN slug ctx n).1 = anchorsCtxN n
  | ctx, g, .text s => ⟨rfl, rfl⟩
  | ctx, g, .elem tag attrs ch => by
    by_cases hv : tag = "video"
    · subst hv
      by_cases hd : (goTrimSpace (videoDiscoveredSrc ctx attrs ch)).isEmpty = true
      · rw [rwVid_video_skip slug ctx attrs ch hd]
        constructor
        · simp [imgsCtxN,
            (vidPassImgL_spec slug ctx (g || hasClassToken attrs "wp-block-gallery") ch).1]
        · simp [anchorsCtxN, (vidPassImgL_spec slug ctx g ch).2]
      · have hd' : (goTrimSpace (videoDiscoveredSrc ctx attrs ch)).isEmpty = false := by
          simpa using hd
        rw [rwVid_video_rw slug ctx attrs ch hd']
        constructor
        · simp [imgsCtxN,
            hasClassToken_setAttr attrs "src" _ _ (by decide),
            (vidPassImgL_spec slug (some (videoRelPath slug (videoDiscoveredSrc ctx attrs ch)))
              (g || hasClassToken attrs "wp-block-gallery") ch).1]
        · simp [anchorsCtxN,
            (vidPassImgL_spec slug (some (videoRelPath slug (videoDiscoveredSrc ctx attrs ch)))
              g ch).2]
    · rw [rwVid_other slug ctx tag attrs ch hv]
      rcases ctx with _ | r
      · constructor
        · simp [imgsCtxN,
            (vidPassImgL_spec slug none (g || hasClassToken attrs "wp-block-gallery") ch).1]
        · simp [anchorsCtxN, (vidPassImgL_spec slug none g ch).2]
      · by_cases hs : tag = "source"
        · subst hs
          constructor
          · simp [imgsCtxN,
              hasClassToken_setAttr attrs "src" r _ (by decide),
              (vidPassImgL_spec slug (some r) (g || hasClassToken attrs "wp-block-gallery") ch).1,
              if_pos rfl, if_neg (by decide : ¬ ("source" = "img"))]
          · simp [anchorsCtxN, (vidPassImgL_spec slug (some r) g ch).2, if_pos rfl,
              if_neg (by decide : ¬ ("source" = "a"))]
        · simp only [if_neg hs]
          constructor
          · simp [imgsCtxN,
              (vidPassImgL_spec slug (some r) (g || hasClassToken attrs "wp-block-gallery") ch).1]
          · simp [anchorsCtxN, (vidPassImgL_spec slug (some r) g ch).2]

theorem vidPassImgL_spec (slug : String) :
    ∀ (ctx : Option String) (g : Bool) (ns : List Node),
      imgsCtxL g (rewriteVideosL slug ctx ns).1 = imgsCtxL g ns ∧
      anchorsCtxL (rewriteVideosL slug ctx ns).1 = anchorsCtxL ns
  | ctx, g, [] => ⟨rfl, rfl⟩
  | ctx, g, n :: rest => by
    have ihn := vidPassImgN_spec slug ctx g n
    have ihr := vidPassImgL_spec slug ctx g rest
    rw [rwVidL_cons]
    constructor
    · show imgsCtxN g _ ++ imgsCtxL g _ = _
      rw [ihn.1, ihr.1]
      rfl
    · show anchorsCtxN _ ++ anchorsCtxL _ = _
      rw [ihn.2, ihr.2]
      rfl

end



mutual

/-- With no video in the subtree and no enclosing rewritten video, the
video pass is the identity. -/
theorem vidPassNoneIdN (slug : String) :
    ∀ (n : Node), noVideoN n = true → rewriteVideosN slug none n = (n, [])
  | .text s, _ => rfl
  | .elem tag attrs ch, h => by
    have hpair := h
    simp only [noVideoN, Bool.and_eq_true] at hpair
    have hv : ¬ tag = "video" := by
      intro he
      subst he
      simpa using hpair.1
    rw [rwVid_other slug none tag attrs ch hv, vidPassNoneIdL slug ch hpair.2]

theorem vidPassNoneIdL (slug : String) :
    ∀ (ns : List Node), noVideoL ns = true → rewriteVideosL slug none ns = (ns, [])
  | [], _ => rfl
  | n :: rest, h => by
    have hpair := h
    simp only [noVideoL, Bool.and_eq_true] at hpair
    rw [rwVidL_cons, vidPassNoneIdN slug n hpair.1, vidPassNoneIdL slug rest hpair.2]
    rfl

end

mutual

/-- Inside a rewritten video (context `r`), a video-free subtree has every
`source` element's `src` set to `r` and schedules nothing. -/
theorem vidPassSomeN (slug : String) (r : String) :
    ∀ (n : Node), noVideoN n = true →
      rewriteVideosN slug (some r) n = (setSrcOnSourcesN r n, [])
  | .text s, _ => rfl
  | .elem tag attrs ch, h => by
    have hpair := h
    simp only [noVideoN, Bool.and_eq_true] at hpair
    have hv : ¬ tag = "video" := by
      intro he
      subst he
      simpa using hpair.1
    rw [rwVid_other slug (some r) tag attrs ch hv, vidPassSomeL slug r ch hpair.2]
    simp only [setSrcOnSourcesN]

theorem vidPassSomeL (slug : String) (r : String) :
    ∀ (ns : List Node), noVideoL ns = true →
      rewriteVideosL slug (some r) ns = (setSrcOnSourcesL r ns, [])
  | [], _ => rfl
  | n :: rest, h => by
    have hpair := h
    simp only [noVideoL, Bool.and_eq_true] at hpair
    rw [rwVidL_cons, vidPassSomeN slug r n hpair.1, vidPassSomeL slug r rest hpair.2]
    rfl

end

mutual

theorem sourceSrcs_setSrcN (r : String) :
    ∀ (n : Node), sourceSrcsN (setSrcOnSourcesN r n) = (sourceSrcsN n).map (fun _ => r)
  | .text _ => rfl
  | .elem tag attrs ch => by
    by_cases hs : tag = "source"
    · subst hs
      simp [setSrcOnSourcesN, sourceSrcsN, sourceSrcs_setSrcL r ch, attrOr, findAttr_setAttr]
    · simp [setSrcOnSourcesN, sourceSrcsN, hs, sourceSrcs_setSrcL r ch]

theorem sourceSrcs_setSrcL (r : String) :
    ∀ (ns : List Node), sourceSrcsL (setSrcOnSourcesL r ns) = (sourceSrcsL ns).map (fun _ => r)
  | [] => rfl
  | n :: rest => by
    simp [setSrcOnSourcesL, sourceSrcsL, sourceSrcs_setSrcN r n, sourceSrcs_setSrcL r rest]

end

mutual

theorem noVideo_setSrcN (r : String) :
    ∀ (n : Node), noVideoN (setSrcOnSourcesN r n) = noVideoN n
  | .text _ => rfl
  | .elem tag attrs ch => by
    simp [setSrcOnSourcesN, noVideoN, noVideo_setSrcL r ch]

theorem noVideo_setSrcL (r : String) :
    ∀ (ns : List Node), noVideoL (setSrcOnSourcesL r ns) = noVideoL ns
  | [] => rfl
  | n :: rest => by
    simp [setSrcOnSourcesL, noVideoL, noVideo_setSrcN r n, noVideo_setSrcL r rest]

end

mutual

theorem videoProj_nilN : ∀ (n : Node), noVideoN n = true → videoProjN n = []
  | .text _, _ => rfl
  | .elem tag attrs ch, h => by
    have hpair := h
    simp only [noVideoN, Bool.and_eq_true] at hpair
    have hv : ¬ tag = "video" := by
      intro he
      subst he
      simpa using hpair.1
    simp [videoProjN, hv, videoProj_nilL ch hpair.2]

theorem videoProj_nilL : ∀ (ns : List Node), noVideoL ns = true → videoProjL ns = []
  | [], _ => rfl
  | n :: rest, h => by
    have hpair := h
    simp only [noVideoL, Bool.and_eq_true] at hpair
    simp [videoProjL, videoProj_nilN n hpair.1, videoProj_nilL rest hpair.2]

end

mutual

theorem firstSource_headN :
    ∀ (n : Node), (firstSourceN n).map (fun a => attrOr a "src") = (sourceSrcsN n).head?
  | .text _ => rfl
  | .elem tag attrs ch => by
    by_cases hs : tag = "source"
    · subst hs
      simp [firstSourceN, sourceSrcsN]
    · simp [firstSourceN, sourceSrcsN, hs, firstSource_headL ch]

theorem firstSource_headL :
    ∀ (ns : List Node), (firstSourceL ns).map (fun a => attrOr a "src") = (sourceSrcsL ns).head?
  | [] => rfl
  | n :: rest => by
    simp only [firstSourceL, sourceSrcsL]
    cases hf : firstSourceN n with
    | some sa =>
      have := firstSource_headN n
      rw [hf] at this
      cases hsrc : sourceSrcsN n with
      | nil => rw [hsrc] at this; simp at this
      | cons x xs =>
        rw [hsrc] at this
        simp at this
        simp [this]
    | none =>
      have := firstSource_headN n
      rw [hf] at this
      cases hsrc : sourceSrcsN n with
      | nil => simp [firstSource_headL rest]
      | cons x xs => rw [hsrc] at this; simp at this

end

/-- The discovered source of an unnested video, in terms of the
projection. -/
theorem discovered_eq (attrs : Attrs) (ch : List Node) :
    videoDiscoveredSrc none attrs ch =
      (if (goTrimSpace (attrOr attrs "src")).isEmpty then
        (sourceSrcsL ch).headD (attrOr attrs "src")
       else attrOr attrs "src") := by
  simp only [videoDiscoveredSrc]
  split_ifs with h
  · have := firstSource_headL ch
    cases hf : firstSourceL ch with
    | some sa =>
      rw [hf] at this
      cases hsrc : sourceSrcsL ch with
      | nil => rw [hsrc] at this; simp at this
      | cons x xs =>
        rw [hsrc] at this
        simp at this
        simp [this]
    | none =>
      rw [hf] at this
      cases hsrc : sourceSrcsL ch with
      | nil => simp
      | cons x xs => rw [hsrc] at this; simp at this
  · rfl



mutual

/-- The video pass maps every (unnested) video's projection through
`videoProjStep`. -/
theorem vidPassProjN (slug : String) :
    ∀ (n : Node), noNestedVideoN n = true →
      videoProjN (rewriteVideosN slug none n).1 = (videoProjN n).map (videoProjStep slug)
  | .text _, _ => rfl
  | .elem tag attrs ch, h => by
    by_cases hv : tag = "video"
    · subst hv
      have hnv : noVideoL ch = true := by simpa [noNestedVideoN] using h
      by_cases hd : (goTrimSpace (videoDiscoveredSrc none attrs ch)).isEmpty = true
      · rw [rwVid_video_skip slug none attrs ch hd, vidPassNoneIdL slug ch hnv]
        have hproj := videoProj_nilL ch hnv
        have hstep : videoProjStep slug (attrs, sourceSrcsL ch) = (attrs, sourceSrcsL ch) := by
          simp only [videoProjStep]
          rw [← discovered_eq attrs ch, if_pos hd]
        simp [videoProjN, hproj, hstep]
      · have hd' : (goTrimSpace (videoDiscoveredSrc none attrs ch)).isEmpty = false := by
          simpa using hd
        rw [rwVid_video_rw slug none attrs ch hd',
          vidPassSomeL slug (videoRelPath slug (videoDiscoveredSrc none attrs ch)) ch hnv]
        have hstep : videoProjStep slug (attrs, sourceSrcsL ch) =
            (setAttr attrs "src" (videoRelPath slug (videoDiscoveredSrc none attrs ch)),
             (sourceSrcsL ch).map
               (fun _ => videoRelPath slug (videoDiscoveredSrc none attrs ch))) := by
          simp only [videoProjStep]
          rw [← discovered_eq attrs ch, if_neg (by simp [hd'])]
        have hnv2 : noVideoL
            (setSrcOnSourcesL (videoRelPath slug (videoDiscoveredSrc none attrs ch)) ch) = true := by
          rw [noVideo_setSrcL]
          exact hnv
        simp [videoProjN, videoProj_nilL _ hnv2, videoProj_nilL ch hnv,
          sourceSrcs_setSrcL, hstep]
    · have hnn : noNestedVideoL ch = true := by
        have := h
        simpa [noNestedVideoN, hv] using this
      rw [rwVid_other slug none tag attrs ch hv]
      simp [videoProjN, hv, vidPassProjL slug ch hnn]

theorem vidPassProjL (slug : String) :
    ∀ (ns : List Node), noNestedVideoL ns = true →
      videoProjL (rewriteVideosL slug none ns).1 = (videoProjL ns).map (videoProjStep slug)
  | [], _ => rfl
  | n :: rest, h => by
    have hpair := h
    simp only [noNestedVideoL, Bool.and_eq_true] at hpair
    rw [rwVidL_cons]
    show videoProjN _ ++ videoProjL _ = _
    rw [vidPassProjN slug n hpair.1, vidPassProjL slug rest hpair.2]
    simp [videoProjL, List.map_append]

end



/-- C1 (amended): after `rewriteAndDownloadImages`, (a) the images of the
returned tree are exactly the input's images with emoji icons replaced by
their alt text, images without a best source untouched, and every other
image stripped of `srcset`/`sizes` and pointed at its local relative path
(gallery-routed when a `.wp-block-gallery` ancestor exists); (b) every
`a` element that captures rewritten images as their nearest enclosing
hyperlink has its `href` set to the local path of the *last* such image in
document order (not each image's own path, which the counterexample
refutes); (c) every video with a discoverable source URL has its `src`
and the `src` of all its `source` descendants set to the video's local
relative path.  Hypotheses: `img` elements are childless (true of parsed
HTML) and no `video` nests inside another. -/
theorem rewrite_media_localizes (slug : String) (roots : List Node)
    (h1 : imgsChildlessL roots = true) (h2 : noNestedVideoL roots = true) :
    imgsCtxL false (rewriteAndDownloadImages slug roots).1 =
      (imgsCtxL false roots).filterMap (imgStep slug) ∧
    anchorsCtxL (rewriteAndDownloadImages slug roots).1 =
      anchorsExpectedL slug false roots ∧
    videoProjL (rewriteAndDownloadImages slug roots).1 =
      (videoProjL roots).map (videoProjStep slug) := by
  have hmid := imgPassL_spec slug false roots h1
  have hvid := imgPassVideoL_spec slug false roots h1
  have hout : (rewriteAndDownloadImages slug roots).1 =
      (rewriteVideosL slug none (rewriteImgsL slug false roots).1).1 := by
    rcases hA : rewriteImgsL slug false roots with ⟨ns1, sch1, p1⟩
    rcases hB : rewriteVideosL slug none ns1 with ⟨ns2, sch2⟩
    simp [rewriteAndDownloadImages, hA, hB]
  rw [hout]
  refine ⟨?_, ?_, ?_⟩
  · rw [(vidPassImgL_spec slug none false _).1, hmid.1]
  · rw [(vidPassImgL_spec slug none false _).2, hmid.2.1]
  · rw [vidPassProjL slug _ (by rw [hvid.2.2.2]; exact h2), hvid.1]

/-- C1 counterexample input: one hyperlink wrapping two relocatable
images. -/
def c1cex : List Node :=
  [Node.elem "a" [("href", "https://r/")]
    [Node.elem "img" [("src", "https://x/a.jpg")] [],
     Node.elem "img" [("src", "https://x/b.jpg")] []]]

/-- C1 counterexample: both images are relocated, but the enclosing
hyperlink's `href` is the *second* image's local path, not "that same
path" for the first image as the claim states. -/
theorem rewrite_href_last_wins_cex :
    (rewriteAndDownloadImages "s" c1cex).1 =
      [Node.elem "a" [("href", "/images/s/b.jpg")]
        [Node.elem "img" [("src", "/images/s/a.jpg")] [],
         Node.elem "img" [("src", "/images/s/b.jpg")] []]] ∧
    imgRewrittenRel "s" false [("src", "https://x/a.jpg")] = "/images/s/a.jpg" ∧
    ("/images/s/b.jpg" : String) ≠ "/images/s/a.jpg" :=
  ⟨rfl, by decide, by decide⟩

/-- C1 witness. -/
theorem rewrite_media_localizes_witness :
    imgsCtxL false (rewriteAndDownloadImages "2024-01-test" c7Input).1 =
      (imgsCtxL false c7Input).filterMap (imgStep "2024-01-test") ∧
    anchorsCtxL (rewriteAndDownloadImages "2024-01-test" c7Input).1 =
      anchorsExpectedL "2024-01-test" false c7Input ∧
    videoProjL (rewriteAndDownloadImages "2024-01-test" c7Input).1 =
      (videoProjL c7Input).map (videoProjStep "2024-01-test") :=
  rewrite_media_localizes "2024-01-test" c7Input (by decide) (by decide)

example : goPathClean "//a.jpg" = "/a.jpg" := by decide
example : goPathBase "/a/b.jpg" = "b.jpg" := by decide
example : goPathDir "/a-300x200.jpg" = "/" := by decide
example : goPathExt "a-300x200.jpg" = ".jpg" := by decide
example : toOriginalURL "https://x/a-300x200.jpg" = "https://x/a.jpg" := by decide
example : toOriginalURL "https://x/a-300x200-scaled.jpg" = "https://x/a-300x200.jpg" := by decide
example : pickBestSrc "" "a.jpg 300w, b.jpg 1024w, c.jpg 768w" = "b.jpg" := by decide
example : filenameFromURL "https://x/a.jpg?v=2" = "a.jpg" := by decide
example : filenameFromURL "https://x/" = "image" := by decide

end Rss2Hugo
